import Mathlib

/-!
Verification of the Legion Protocol core against its specification.

Rust strings are modelled as lists of characters (`Str`); byte lengths
coincide with list lengths on the ASCII inputs the properties range over.
Rust's `HashMap` is modelled as an association list with insert-overwrite
semantics: iteration order is the (unspecified) first-insertion order.
-/

namespace Legion

abbrev Str := List Char

/-- Turn a Lean string literal into the `List Char` model. -/
def lit (x : String) : Str := x.toList

/-- Rust `str::replace` with a single-character pattern: every occurrence
of `a` is replaced by `r`. -/
def replace1 (a : Char) (r : Str) : Str → Str
  | [] => []
  | c :: rest => (if c = a then r else [c]) ++ replace1 a r rest

/-- Rust `str::replace` with a two-character pattern `[a, b]`: leftmost,
non-overlapping occurrences are replaced by `r`. -/
def replace2 (a b : Char) (r : Str) : Str → Str
  | [] => []
  | [c] => [c]
  | c :: d :: rest =>
      if c = a ∧ d = b then r ++ replace2 a b r rest
      else c :: replace2 a b r (d :: rest)

/-- `escape_tag_value` from `src/message.rs`: the chained `replace` calls
`\ → \\`, `; → \:`, space `→ \s`, CR `→ \r`, LF `→ \n`, applied in that
order (innermost first). -/
def escape_tag_value (v : Str) : Str :=
  replace1 '\n' ['\\', 'n']
    (replace1 '\r' ['\\', 'r']
      (replace1 ' ' ['\\', 's']
        (replace1 ';' ['\\', ':']
          (replace1 '\\' ['\\', '\\'] v))))

/-- `unescape_tag_value` from `src/message.rs`: the chained `replace` calls
`\: → ;`, `\s → ` space, `\\ → \`, `\r →` CR, `\n →` LF, applied in that
order (innermost first). -/
def unescape_tag_value (v : Str) : Str :=
  replace2 '\\' 'n' ['\n']
    (replace2 '\\' 'r' ['\r']
      (replace2 '\\' '\\' ['\\']
        (replace2 '\\' 's' [' ']
          (replace2 '\\' ':' [';'] v))))

example : escape_tag_value (lit "a;b c") = lit "a\\:b\\sc" := by decide

example : unescape_tag_value (lit "a\\:b\\sc") = lit "a;b c" := by decide

example : unescape_tag_value (escape_tag_value ['\\', ':']) = ['\\', ';'] := by decide

/-- A tag value in which no backslash is immediately followed by one of the
literal characters `:`, `s`, `r`, `n`.  On such values the sequential
`replace` chains of `escape_tag_value`/`unescape_tag_value` are inverse. -/
def noBadSeq : Str → Bool
  | [] => true
  | [_] => true
  | c :: d :: rest =>
      !(c = '\\' && (d = ':' || d = 's' || d = 'r' || d = 'n')) &&
        noBadSeq (d :: rest)

/-- Concatenation of a per-character encoding over a string. -/
def concatMap (f : Char → Str) : Str → Str
  | [] => []
  | c :: v => f c ++ concatMap f v

/-- Per-character form of the full escape chain. -/
def encE (c : Char) : Str :=
  if c = '\\' then ['\\', '\\'] else if c = ';' then ['\\', ':'] else
  if c = ' ' then ['\\', 's'] else if c = '\r' then ['\\', 'r'] else
  if c = '\n' then ['\\', 'n'] else [c]

/-- Encoding remaining after undoing `\: → ;`. -/
def encA (c : Char) : Str :=
  if c = '\\' then ['\\', '\\'] else if c = ';' then [';'] else
  if c = ' ' then ['\\', 's'] else if c = '\r' then ['\\', 'r'] else
  if c = '\n' then ['\\', 'n'] else [c]

/-- Encoding remaining after also undoing `\s → ` space. -/
def encB (c : Char) : Str :=
  if c = '\\' then ['\\', '\\'] else if c = '\r' then ['\\', 'r'] else
  if c = '\n' then ['\\', 'n'] else [c]

/-- Encoding remaining after also undoing `\\ → \`. -/
def encC (c : Char) : Str :=
  if c = '\r' then ['\\', 'r'] else if c = '\n' then ['\\', 'n'] else [c]

/-- Encoding remaining after also undoing `\r → ` CR. -/
def encD (c : Char) : Str :=
  if c = '\n' then ['\\', 'n'] else [c]

lemma replace1_append (a : Char) (r x y : Str) :
    replace1 a r (x ++ y) = replace1 a r x ++ replace1 a r y := by
  induction x with
  | nil => rfl
  | cons c t ih => simp [replace1, ih]

lemma escape_append (x y : Str) :
    escape_tag_value (x ++ y) = escape_tag_value x ++ escape_tag_value y := by
  simp [escape_tag_value, replace1_append]

lemma concatMap_singleton (v : Str) : concatMap (fun c => [c]) v = v := by
  induction v with
  | nil => rfl
  | cons c t ih => simp [concatMap, ih]

lemma escape_eq_concatMap (v : Str) : escape_tag_value v = concatMap encE v := by
  induction v with
  | nil => rfl
  | cons c t ih =>
      have h1 : (c :: t) = [c] ++ t := rfl
      rw [h1, escape_append, show concatMap encE ([c] ++ t) = encE c ++ concatMap encE t from rfl, ih]
      congr 1
      by_cases hbs : c = '\\'
      · subst hbs; decide
      by_cases hsc : c = ';'
      · subst hsc; decide
      by_cases hsp : c = ' '
      · subst hsp; decide
      by_cases hcr : c = '\r'
      · subst hcr; decide
      by_cases hlf : c = '\n'
      · subst hlf; decide
      simp [escape_tag_value, replace1, encE, hbs, hsc, hsp, hcr, hlf]

lemma noBadSeq_tail {c : Char} {v : Str} (h : noBadSeq (c :: v) = true) :
    noBadSeq v = true := by
  cases v with
  | nil => rfl
  | cons d t => simp [noBadSeq] at h; exact h.2

lemma noBadSeq_head {c : Char} {v : Str} (h : noBadSeq ('\\' :: c :: v) = true) :
    c ≠ ':' ∧ c ≠ 's' ∧ c ≠ 'r' ∧ c ≠ 'n' := by
  simp [noBadSeq] at h
  obtain ⟨⟨⟨h1, h2⟩, h3⟩, h4⟩ := h.1
  exact ⟨h1, h2, h3, h4⟩

/-- Skipping a non-pattern-start character. -/
lemma replace2_cons_ne {a b c : Char} {r t : Str} (h : c ≠ a) :
    replace2 a b r (c :: t) = c :: replace2 a b r t := by
  cases t with
  | nil => rfl
  | cons d rest => simp [replace2, h]

/-- Skipping a backslash whose follower does not complete the pattern. -/
lemma replace2_bs_cons {b : Char} {r t : Str} (h : t.head? ≠ some b) :
    replace2 '\\' b r ('\\' :: t) = '\\' :: replace2 '\\' b r t := by
  cases t with
  | nil => rfl
  | cons d rest =>
      have hd : d ≠ b := by simpa using h
      simp [replace2, hd]

lemma replace2_pat {a b : Char} (r rest : Str) :
    replace2 a b r (a :: b :: rest) = r ++ replace2 a b r rest := by
  rw [show replace2 a b r (a :: b :: rest) =
        if a = a ∧ b = b then r ++ replace2 a b r rest
        else a :: replace2 a b r (b :: rest) from rfl,
      if_pos ⟨rfl, rfl⟩]

lemma replace2_cons_cons_ne {a b c d : Char} (h : ¬(c = a ∧ d = b)) (r rest : Str) :
    replace2 a b r (c :: d :: rest) = c :: replace2 a b r (d :: rest) := by
  rw [show replace2 a b r (c :: d :: rest) =
        if c = a ∧ d = b then r ++ replace2 a b r rest
        else c :: replace2 a b r (d :: rest) from rfl,
      if_neg h]

lemma cm_head_ne {enc : Char → Str}
    (henc : ∀ c, ∃ t0, enc c = '\\' :: t0 ∨ enc c = c :: t0)
    {b c' : Char} (hb : ('\\' : Char) ≠ b) (hc : c' ≠ b) (t' : Str) :
    (concatMap enc (c' :: t')).head? ≠ some b := by
  show (enc c' ++ concatMap enc t').head? ≠ some b
  obtain ⟨t0, h | h⟩ := henc c' <;> rw [h] <;>
    simp only [List.cons_append, List.head?_cons]
  · simpa using hb
  · simpa using hc

lemma encE_shape : ∀ c, ∃ t0, encE c = '\\' :: t0 ∨ encE c = c :: t0 := by
  intro c
  unfold encE
  split_ifs <;> first | exact ⟨_, Or.inl rfl⟩ | exact ⟨_, Or.inr rfl⟩

lemma encA_shape : ∀ c, ∃ t0, encA c = '\\' :: t0 ∨ encA c = c :: t0 := by
  intro c
  unfold encA
  split_ifs with h1 h2 <;>
    first
      | exact ⟨_, Or.inl rfl⟩
      | (subst h2; exact ⟨_, Or.inr rfl⟩)
      | exact ⟨_, Or.inr rfl⟩

lemma encC_shape : ∀ c, ∃ t0, encC c = '\\' :: t0 ∨ encC c = c :: t0 := by
  intro c
  unfold encC
  split_ifs <;> first | exact ⟨_, Or.inl rfl⟩ | exact ⟨_, Or.inr rfl⟩

lemma encD_shape : ∀ c, ∃ t0, encD c = '\\' :: t0 ∨ encD c = c :: t0 := by
  intro c
  unfold encD
  split_ifs <;> first | exact ⟨_, Or.inl rfl⟩ | exact ⟨_, Or.inr rfl⟩

lemma stepA : ∀ v, noBadSeq v = true →
    replace2 '\\' ':' [';'] (concatMap encE v) = concatMap encA v := by
  intro v
  induction v with
  | nil => intro _; rfl
  | cons c t ih =>
      intro hv
      have IH := ih (noBadSeq_tail hv)
      show replace2 '\\' ':' [';'] (encE c ++ concatMap encE t) = encA c ++ concatMap encA t
      by_cases h1 : c = '\\'
      · subst h1
        have hne : (concatMap encE t).head? ≠ some ':' := by
          cases t with
          | nil => simp [concatMap]
          | cons c' t' => exact cm_head_ne encE_shape (by decide) (noBadSeq_head hv).1 t'
        show replace2 '\\' ':' [';'] ('\\' :: '\\' :: concatMap encE t) =
          '\\' :: '\\' :: concatMap encA t
        rw [replace2_bs_cons (by simp only [List.head?_cons]; decide),
            replace2_bs_cons hne, IH]
      by_cases h2 : c = ';'
      · subst h2
        show replace2 '\\' ':' [';'] ('\\' :: ':' :: concatMap encE t) =
          ';' :: concatMap encA t
        rw [replace2_pat, IH]
        rfl
      by_cases h3 : c = ' '
      · subst h3
        show replace2 '\\' ':' [';'] ('\\' :: 's' :: concatMap encE t) =
          '\\' :: 's' :: concatMap encA t
        rw [replace2_cons_cons_ne (by decide), replace2_cons_ne (by decide), IH]
      by_cases h4 : c = '\r'
      · subst h4
        show replace2 '\\' ':' [';'] ('\\' :: 'r' :: concatMap encE t) =
          '\\' :: 'r' :: concatMap encA t
        rw [replace2_cons_cons_ne (by decide), replace2_cons_ne (by decide), IH]
      by_cases h5 : c = '\n'
      · subst h5
        show replace2 '\\' ':' [';'] ('\\' :: 'n' :: concatMap encE t) =
          '\\' :: 'n' :: concatMap encA t
        rw [replace2_cons_cons_ne (by decide), replace2_cons_ne (by decide), IH]
      rw [show encE c = [c] from by simp [encE, h1, h2, h3, h4, h5],
          show encA c = [c] from by simp [encA, h1, h2, h3, h4, h5]]
      show replace2 '\\' ':' [';'] (c :: concatMap encE t) = c :: concatMap encA t
      rw [replace2_cons_ne h1, IH]

lemma stepB : ∀ v, noBadSeq v = true →
    replace2 '\\' 's' [' '] (concatMap encA v) = concatMap encB v := by
  intro v
  induction v with
  | nil => intro _; rfl
  | cons c t ih =>
      intro hv
      have IH := ih (noBadSeq_tail hv)
      show replace2 '\\' 's' [' '] (encA c ++ concatMap encA t) = encB c ++ concatMap encB t
      by_cases h1 : c = '\\'
      · subst h1
        have hne : (concatMap encA t).head? ≠ some 's' := by
          cases t with
          | nil => simp [concatMap]
          | cons c' t' => exact cm_head_ne encA_shape (by decide) (noBadSeq_head hv).2.1 t'
        show replace2 '\\' 's' [' '] ('\\' :: '\\' :: concatMap encA t) =
          '\\' :: '\\' :: concatMap encB t
        rw [replace2_bs_cons (by simp only [List.head?_cons]; decide),
            replace2_bs_cons hne, IH]
      by_cases h2 : c = ';'
      · subst h2
        show replace2 '\\' 's' [' '] (';' :: concatMap encA t) = ';' :: concatMap encB t
        rw [replace2_cons_ne (by decide), IH]
      by_cases h3 : c = ' '
      · subst h3
        show replace2 '\\' 's' [' '] ('\\' :: 's' :: concatMap encA t) =
          ' ' :: concatMap encB t
        rw [replace2_pat, IH]
        rfl
      by_cases h4 : c = '\r'
      · subst h4
        show replace2 '\\' 's' [' '] ('\\' :: 'r' :: concatMap encA t) =
          '\\' :: 'r' :: concatMap encB t
        rw [replace2_cons_cons_ne (by decide), replace2_cons_ne (by decide), IH]
      by_cases h5 : c = '\n'
      · subst h5
        show replace2 '\\' 's' [' '] ('\\' :: 'n' :: concatMap encA t) =
          '\\' :: 'n' :: concatMap encB t
        rw [replace2_cons_cons_ne (by decide), replace2_cons_ne (by decide), IH]
      rw [show encA c = [c] from by simp [encA, h1, h2, h3, h4, h5],
          show encB c = [c] from by simp [encB, h1, h4, h5]]
      show replace2 '\\' 's' [' '] (c :: concatMap encA t) = c :: concatMap encB t
      rw [replace2_cons_ne h1, IH]

lemma stepC : ∀ v, replace2 '\\' '\\' ['\\'] (concatMap encB v) = concatMap encC v := by
  intro v
  induction v with
  | nil => rfl
  | cons c t ih =>
      show replace2 '\\' '\\' ['\\'] (encB c ++ concatMap encB t) = encC c ++ concatMap encC t
      by_cases h1 : c = '\\'
      · subst h1
        show replace2 '\\' '\\' ['\\'] ('\\' :: '\\' :: concatMap encB t) =
          '\\' :: concatMap encC t
        rw [replace2_pat, ih]
        rfl
      by_cases h2 : c = '\r'
      · subst h2
        show replace2 '\\' '\\' ['\\'] ('\\' :: 'r' :: concatMap encB t) =
          '\\' :: 'r' :: concatMap encC t
        rw [replace2_cons_cons_ne (by decide), replace2_cons_ne (by decide), ih]
      by_cases h3 : c = '\n'
      · subst h3
        show replace2 '\\' '\\' ['\\'] ('\\' :: 'n' :: concatMap encB t) =
          '\\' :: 'n' :: concatMap encC t
        rw [replace2_cons_cons_ne (by decide), replace2_cons_ne (by decide), ih]
      rw [show encB c = [c] from by simp [encB, h1, h2, h3],
          show encC c = [c] from by simp [encC, h2, h3]]
      show replace2 '\\' '\\' ['\\'] (c :: concatMap encB t) = c :: concatMap encC t
      rw [replace2_cons_ne h1, ih]

lemma stepD : ∀ v, noBadSeq v = true →
    replace2 '\\' 'r' ['\r'] (concatMap encC v) = concatMap encD v := by
  intro v
  induction v with
  | nil => intro _; rfl
  | cons c t ih =>
      intro hv
      have IH := ih (noBadSeq_tail hv)
      show replace2 '\\' 'r' ['\r'] (encC c ++ concatMap encC t) = encD c ++ concatMap encD t
      by_cases h1 : c = '\r'
      · subst h1
        show replace2 '\\' 'r' ['\r'] ('\\' :: 'r' :: concatMap encC t) =
          '\r' :: concatMap encD t
        rw [replace2_pat, IH]
        rfl
      by_cases h2 : c = '\n'
      · subst h2
        show replace2 '\\' 'r' ['\r'] ('\\' :: 'n' :: concatMap encC t) =
          '\\' :: 'n' :: concatMap encD t
        rw [replace2_cons_cons_ne (by decide), replace2_cons_ne (by decide), IH]
      by_cases h3 : c = '\\'
      · subst h3
        have hne : (concatMap encC t).head? ≠ some 'r' := by
          cases t with
          | nil => simp [concatMap]
          | cons c' t' => exact cm_head_ne encC_shape (by decide) (noBadSeq_head hv).2.2.1 t'
        show replace2 '\\' 'r' ['\r'] ('\\' :: concatMap encC t) =
          '\\' :: concatMap encD t
        rw [replace2_bs_cons hne, IH]
      rw [show encC c = [c] from by simp [encC, h1, h2],
          show encD c = [c] from by simp [encD, h2]]
      show replace2 '\\' 'r' ['\r'] (c :: concatMap encC t) = c :: concatMap encD t
      rw [replace2_cons_ne h3, IH]

lemma stepE : ∀ v, noBadSeq v = true →
    replace2 '\\' 'n' ['\n'] (concatMap encD v) = v := by
  intro v
  induction v with
  | nil => intro _; rfl
  | cons c t ih =>
      intro hv
      have IH := ih (noBadSeq_tail hv)
      show replace2 '\\' 'n' ['\n'] (encD c ++ concatMap encD t) = c :: t
      by_cases h1 : c = '\n'
      · subst h1
        show replace2 '\\' 'n' ['\n'] ('\\' :: 'n' :: concatMap encD t) = '\n' :: t
        rw [replace2_pat, IH]
        rfl
      by_cases h2 : c = '\\'
      · subst h2
        have hne : (concatMap encD t).head? ≠ some 'n' := by
          cases t with
          | nil => simp [concatMap]
          | cons c' t' => exact cm_head_ne encD_shape (by decide) (noBadSeq_head hv).2.2.2 t'
        show replace2 '\\' 'n' ['\n'] ('\\' :: concatMap encD t) = '\\' :: t
        rw [replace2_bs_cons hne, IH]
      rw [show encD c = [c] from by simp [encD, h1]]
      show replace2 '\\' 'n' ['\n'] (c :: concatMap encD t) = c :: t
      rw [replace2_cons_ne h2, IH]

/-- Core inverse lemma: on values without a backslash immediately followed by
`:`/`s`/`r`/`n`, the unescape chain undoes the escape chain. -/
lemma unescape_escape_of_noBadSeq (v : Str) (h : noBadSeq v = true) :
    unescape_tag_value (escape_tag_value v) = v := by
  rw [escape_eq_concatMap]
  show replace2 '\\' 'n' ['\n']
      (replace2 '\\' 'r' ['\r']
        (replace2 '\\' '\\' ['\\']
          (replace2 '\\' 's' [' ']
            (replace2 '\\' ':' [';'] (concatMap encE v))))) = v
  rw [stepA v h, stepB v h, stepC v, stepD v h, stepE v h]

/-- C2, counterexample: on the two-character value backslash-colon, the
escape chain produces backslash-backslash-colon, whose unescape is
backslash-semicolon, not the original value — so the claimed inverse law
fails for a value built from a backslash and an ordinary character. -/
theorem claim_C2_counterexample :
    escape_tag_value ['\\', ':'] = ['\\', '\\', ':'] ∧
    unescape_tag_value (escape_tag_value ['\\', ':']) = ['\\', ';'] ∧
    unescape_tag_value (escape_tag_value ['\\', ':']) ≠ ['\\', ':'] := by
  decide

/-- C2, amended: for every tag value in which no backslash is immediately
followed by one of the literal characters `:`, `s`, `r`, `n`, unescaping
the escaped form (substitutions applied in the documented order) gives
back the value: `unescape_tag_value (escape_tag_value v) = v`. -/
theorem claim_C2_escape_unescape_inverse (v : Str) (h : noBadSeq v = true) :
    unescape_tag_value (escape_tag_value v) = v :=
  unescape_escape_of_noBadSeq v h

/-- C2, witness: the amended theorem applied to a concrete value containing
a semicolon, a space, a backslash, a CR and an LF. -/
theorem claim_C2_witness :
    noBadSeq (lit "a;b c\\d\r\n e") = true ∧
    unescape_tag_value (escape_tag_value (lit "a;b c\\d\r\n e")) = lit "a;b c\\d\r\n e" :=
  ⟨by decide, claim_C2_escape_unescape_inverse (lit "a;b c\\d\r\n e") (by decide)⟩

/-! ## Message codec model (`src/message.rs`) -/

/-- The `IronError` variants exercised by the core (`src/error.rs`);
payloads are the formatted message strings. -/
inductive IronError
  | Parse (msg : Str)
  | SecurityViolation (msg : Str)
  | Auth (msg : Str)
  | Sasl (msg : Str)
deriving DecidableEq, Repr

instance {ε α : Type} [DecidableEq ε] [DecidableEq α] : DecidableEq (Except ε α) := fun a b =>
  match a, b with
  | .error e, .error f =>
      if h : e = f then .isTrue (by rw [h]) else .isFalse (fun hc => h (by cases hc; rfl))
  | .ok x, .ok y =>
      if h : x = y then .isTrue (by rw [h]) else .isFalse (fun hc => h (by cases hc; rfl))
  | .error _, .ok _ => .isFalse (fun hc => by cases hc)
  | .ok _, .error _ => .isFalse (fun hc => by cases hc)

/-- `MAX_MESSAGE_LENGTH` from `src/lib.rs`. -/
def MAX_MESSAGE_LENGTH : Nat := 512
/-- `MAX_TAG_LENGTH` from `src/lib.rs`. -/
def MAX_TAG_LENGTH : Nat := 8191
/-- `MAX_PARAMS` from `src/lib.rs`. -/
def MAX_PARAMS : Nat := 15
/-- `MAX_CAPABILITY_NAME_LENGTH` from `src/lib.rs`. -/
def MAX_CAPABILITY_NAME_LENGTH : Nat := 64

/-- Rust `char::is_ascii_alphanumeric`. -/
def isAsciiAlphanumeric (c : Char) : Bool :=
  ('A' ≤ c && c ≤ 'Z') || ('a' ≤ c && c ≤ 'z') || ('0' ≤ c && c ≤ '9')

/-- Rust `char::is_ascii_alphabetic`. -/
def isAsciiAlphabetic (c : Char) : Bool :=
  ('A' ≤ c && c ≤ 'Z') || ('a' ≤ c && c ≤ 'z')

/-- Rust `char::is_ascii_digit`. -/
def isAsciiDigit (c : Char) : Bool := '0' ≤ c && c ≤ '9'

/-- Rust `char::is_ascii` (for `str::is_ascii`, checked per character). -/
def isAsciiChar (c : Char) : Bool := c.toNat ≤ 127

/-- Rust `str::find(ch)` combined with the two slices around the first hit:
`some (before, after)` when `ch` occurs, `none` otherwise. -/
def breakAtChar (ch : Char) : Str → Option (Str × Str)
  | [] => none
  | c :: rest =>
      if c = ch then some ([], rest)
      else
        match breakAtChar ch rest with
        | none => none
        | some (a, b) => some (c :: a, b)

/-- Rust `str::split(ch)`: splits at every occurrence, keeping empty pieces
(the result is never the empty list). -/
def splitOnChar (ch : Char) : Str → List Str
  | [] => [[]]
  | c :: rest =>
      if c = ch then [] :: splitOnChar ch rest
      else
        match splitOnChar ch rest with
        | [] => [[c]]
        | h :: t => (c :: h) :: t

/-- Rust `str::splitn(n, ch)`: at most `n` pieces, the last piece keeping
any further separators. -/
def splitNChar (n : Nat) (ch : Char) (l : Str) : List Str :=
  match n with
  | 0 => []
  | 1 => [l]
  | n + 2 =>
      match breakAtChar ch l with
      | none => [l]
      | some (a, b) => a :: splitNChar (n + 1) ch b

/-- Rust `slice::join(" ")`. -/
def joinSpace : List Str → Str
  | [] => []
  | [x] => x
  | x :: xs => x ++ ' ' :: joinSpace xs

/-- Helper for `trim_end_matches("\r\n")`, working on the reversed string. -/
def trimCrlfRev : Str → Str
  | c1 :: c2 :: rest =>
      if c1 = '\n' ∧ c2 = '\r' then trimCrlfRev rest else c1 :: c2 :: rest
  | l => l

/-- Rust `str::trim_end_matches("\r\n")`: strips every trailing CRLF. -/
def trimEndCrlf (l : Str) : Str := (trimCrlfRev l.reverse).reverse

/-- `is_valid_tag_key` from `src/message.rs`. -/
def is_valid_tag_key (key : Str) : Bool :=
  if key.isEmpty || key.length > MAX_CAPABILITY_NAME_LENGTH then false
  else
    key.all fun c =>
      isAsciiAlphanumeric c || c == '-' || c == '/' || c == '.' || c == '_' || c == '+'

/-- The foreign-protocol command blacklist of `is_valid_command`. -/
def INVALID_COMMANDS : List Str :=
  [lit "GET", lit "POST", lit "PUT", lit "DELETE", lit "HEAD", lit "OPTIONS", lit "PATCH",
   lit "HELO", lit "EHLO", lit "MAIL", lit "RCPT", lit "DATA", lit "RSET", lit "VRFY",
   lit "SYST", lit "STAT", lit "RETR", lit "DELE", lit "UIDL", lit "APOP",
   lit "AUTH", lit "LOGIN", lit "SELECT", lit "EXAMINE", lit "CREATE", lit "RENAME"]

/-- `is_valid_command` from `src/message.rs`. -/
def is_valid_command (command : Str) : Bool :=
  if command.isEmpty || command.length > 32 then false
  else
    if !(command.all isAsciiAlphabetic) &&
        !((command.length == 3) && command.all isAsciiDigit) then false
    else !(INVALID_COMMANDS.contains command)

/-- Rust `str::to_uppercase`, modelled per character (faithful on the ASCII
strings the validated commands are drawn from). -/
def rustToUppercase (l : Str) : Str := l.map Char.toUpper

/-- The `IrcMessage` struct; `tags` is the `HashMap` modelled as an
association list in first-insertion order, `src` models the field
spelled p-r-e-f-i-x in the Rust source (that spelling is a Lean keyword). -/
structure IrcMessage where
  tags : List (Str × Option Str)
  src : Option Str
  command : Str
  params : List Str
deriving DecidableEq, Repr

/-- `HashMap::insert`: overwrite the binding if the key exists, otherwise
append it. -/
def alInsert {α : Type} (k : Str) (v : α) : List (Str × α) → List (Str × α)
  | [] => [(k, v)]
  | (k', v') :: rest => if k' = k then (k, v) :: rest else (k', v') :: alInsert k v rest

/-- `HashMap::get` / `contains_key`. -/
def alLookup {α : Type} (k : Str) : List (Str × α) → Option α
  | [] => none
  | (k', v') :: rest => if k' = k then some v' else alLookup k rest

/-- `HashMap::remove` (result state only). -/
def alRemove {α : Type} (k : Str) : List (Str × α) → List (Str × α)
  | [] => []
  | (k', v') :: rest => if k' = k then rest else (k', v') :: alRemove k rest

/-- The per-tag body of the tag-parsing loop in `from_str`: split each
`key` / `key=value` token, unescape the value, validate the key, insert
(the key check is written once per `=`-shape; it is the same check either
way). -/
def parseTagList (acc : List (Str × Option Str)) :
    List Str → Except IronError (List (Str × Option Str))
  | [] => .ok acc
  | tag :: rest =>
      if tag.isEmpty then parseTagList acc rest
      else
        match breakAtChar '=' tag with
        | some (key, valueStr) =>
            if is_valid_tag_key key then
              parseTagList
                (alInsert key
                  (if valueStr.isEmpty then none else some (unescape_tag_value valueStr)) acc)
                rest
            else .error (.SecurityViolation (lit "Invalid tag key: " ++ key))
        | none =>
            if is_valid_tag_key tag then parseTagList (alInsert tag none acc) rest
            else .error (.SecurityViolation (lit "Invalid tag key: " ++ tag))

/-- The tag-section phase of `from_str`. -/
def parseTags (l : Str) : Except IronError (List (Str × Option Str) × Str) :=
  match l with
  | [] => .ok ([], [])
  | c :: rest =>
      if c = '@' then
        match breakAtChar ' ' rest with
        | none => .error (.Parse (lit "No space after tags"))
        | some (tagStr, remaining) =>
            if tagStr.length > MAX_TAG_LENGTH then
              .error (.SecurityViolation (lit "Tag section exceeds maximum length"))
            else
              match parseTagList [] (splitOnChar ';' tagStr) with
              | .error e => .error e
              | .ok tags => .ok (tags, remaining)
      else .ok ([], c :: rest)

/-- The source-prefix phase of `from_str`. -/
def parseSrc (l : Str) : Except IronError (Option Str × Str) :=
  match l with
  | [] => .ok (none, [])
  | c :: rest =>
      if c = ':' then
        match breakAtChar ' ' rest with
        | none => .error (.Parse (lit "No space after prefix"))
        | some (p, remaining) =>
            if p.any (· = ' ') then .error (.SecurityViolation (lit "Space in prefix"))
            else .ok (some p, remaining)
      else .ok (none, c :: rest)

/-- The parameter loop of `from_str`: the flag records whether at least one
token was already consumed (Rust's `i > 0`); a later token starting with a
colon begins the trailing parameter. -/
def collectParams : Bool → List Str → List Str
  | _, [] => []
  | later, tok :: rest =>
      if later ∧ tok.head? = some ':' then [(joinSpace (tok :: rest)).drop 1]
      else tok :: collectParams true rest

/-- The command-and-parameters phase of `from_str`. -/
def parseCmdParams (l : Str) : Except IronError (Str × List Str) :=
  match splitNChar 15 ' ' l with
  | [] => .error (.Parse (lit "No command found"))
  | cmdTok :: rest =>
      if is_valid_command (rustToUppercase cmdTok) then
        .ok (rustToUppercase cmdTok, collectParams false rest)
      else .error (.SecurityViolation (lit "Invalid command: " ++ rustToUppercase cmdTok))

/-- The per-parameter checks of `validate_security`. -/
def checkParams (maxParamLen : Nat) : List Str → Except IronError Unit
  | [] => .ok ()
  | p :: rest =>
      if p.length > maxParamLen then
        .error (.SecurityViolation (lit "Parameter too long"))
      else if p.any (fun c => c == '\x00' || c == '\r' || c == '\n') then
        .error (.SecurityViolation (lit "Invalid characters in parameter"))
      else if !(p.all isAsciiChar) then
        .error (.SecurityViolation (lit "Non-ASCII characters in parameter"))
      else checkParams maxParamLen rest

/-- Total tag length as summed by `validate_security`:
`key.len() + value.map_or(0, len) + 2` per tag. -/
def totalTagLength (tags : List (Str × Option Str)) : Nat :=
  (tags.map fun kv => kv.1.length + (kv.2.map List.length).getD 0 + 2).sum

/-- The source-prefix check inside `validate_security`. -/
def checkSrc (src : Option Str) : Except IronError Unit :=
  match src with
  | some p =>
      if p.length > 255 || p.any (fun c => c == '\x00') || p.any (fun c => c == ' ') then
        .error (.SecurityViolation (lit "Invalid prefix"))
      else .ok ()
  | none => .ok ()

/-- `IrcMessage::validate_security` from `src/message.rs`. -/
def validate_security (m : IrcMessage) : Except IronError Unit :=
  if m.command.length > 32 then
    .error (.SecurityViolation (lit "Command too long"))
  else if m.params.length > MAX_PARAMS then
    .error (.SecurityViolation (lit "Too many parameters"))
  else
    match checkParams (if m.command = lit "CAP" then 4096 else MAX_MESSAGE_LENGTH) m.params with
    | .error e => .error e
    | .ok _ =>
        match checkSrc m.src with
        | .error e => .error e
        | .ok _ =>
            if totalTagLength m.tags > MAX_TAG_LENGTH then
              .error (.SecurityViolation (lit "Tags too long"))
            else .ok ()

/-- `IrcMessage::from_str` from `src/message.rs` (the `?` operator modelled
as explicit matches). -/
def fromStr (line : Str) : Except IronError IrcMessage :=
  if line.length > MAX_MESSAGE_LENGTH + MAX_TAG_LENGTH then
    .error (.SecurityViolation (lit "Message too long"))
  else
    match parseTags (trimEndCrlf line) with
    | .error e => .error e
    | .ok (tags, l1) =>
        match parseSrc l1 with
        | .error e => .error e
        | .ok (src, l2) =>
            match parseCmdParams l2 with
            | .error e => .error e
            | .ok (command, params) =>
                match validate_security ⟨tags, src, command, params⟩ with
                | .error e => .error e
                | .ok _ => .ok ⟨tags, src, command, params⟩

/-- One serialized tag: `key` or `key=escaped-value`. -/
def serializeTagItem : Str × Option Str → Str
  | (k, none) => k
  | (k, some v) => k ++ '=' :: escape_tag_value v

/-- Join pieces with a separator character. -/
def intercalateChar (c : Char) : List Str → Str
  | [] => []
  | [x] => x
  | x :: xs => x ++ c :: intercalateChar c xs

/-- The parameter section written by `Display::fmt`: every parameter is
preceded by a space; the last is additionally preceded by a colon when it
contains a space or itself starts with a colon. -/
def serializeParams : List Str → Str
  | [] => []
  | [p] => if p.any (fun c => c == ' ') || p.head? == some ':' then ' ' :: ':' :: p else ' ' :: p
  | p :: rest => ' ' :: p ++ serializeParams rest

/-- The serialized line before the terminating CRLF. -/
def serializeBody (m : IrcMessage) : Str :=
  (if m.tags.isEmpty then []
   else '@' :: intercalateChar ';' (m.tags.map serializeTagItem) ++ [' ']) ++
  (match m.src with
   | some p => ':' :: p ++ [' ']
   | none => []) ++
  m.command ++ serializeParams m.params

/-- `Display::fmt` for `IrcMessage` from `src/message.rs` (the `HashMap`
iteration order is the model's list order). -/
def serialize (m : IrcMessage) : Str :=
  serializeBody m ++ ['\r', '\n']

example :
    fromStr (lit "PRIVMSG #channel :Hello world") =
      .ok ⟨[], none, lit "PRIVMSG", [lit "#channel", lit "Hello world"]⟩ := by decide

example :
    fromStr (lit ":nick!user@host PRIVMSG #channel :Hello") =
      .ok ⟨[], some (lit "nick!user@host"), lit "PRIVMSG", [lit "#channel", lit "Hello"]⟩ := by
  decide

example :
    fromStr (lit "@time=2023-01-01T00:00:00.000Z PRIVMSG #c :hi") =
      .ok ⟨[(lit "time", some (lit "2023-01-01T00:00:00.000Z"))], none, lit "PRIVMSG",
        [lit "#c", lit "hi"]⟩ := by decide

example :
    serialize ⟨[], none, lit "PRIVMSG", [lit "#channel", lit "Hello world"]⟩ =
      lit "PRIVMSG #channel :Hello world\r\n" := by decide

/-! ## C10: the parser yields at most 14 parameters -/

lemma splitNChar_length_le : ∀ (n : Nat) (ch : Char) (l : Str),
    (splitNChar n ch l).length ≤ n := by
  intro n
  induction n using Nat.strong_induction_on with
  | _ n ih =>
      intro ch l
      rcases n with _ | _ | k
      · simp [splitNChar]
      · simp [splitNChar]
      · cases hb : breakAtChar ch l with
        | none => simp [splitNChar, hb]
        | some ab =>
            obtain ⟨a, b⟩ := ab
            have hk := ih (k + 1) (by omega) ch b
            simp [splitNChar, hb]
            exact hk

lemma collectParams_length_le : ∀ (toks : List Str) (b : Bool),
    (collectParams b toks).length ≤ toks.length := by
  intro toks
  induction toks with
  | nil => intro b; simp [collectParams]
  | cons t rest ih =>
      intro b
      by_cases hc : (b ∧ t.head? = some ':')
      · simp [collectParams, hc]
      · simp [collectParams, hc]
        have := ih true
        omega

lemma parseCmdParams_ok_length {l : Str} {cp : Str × List Str}
    (h : parseCmdParams l = .ok cp) : cp.2.length ≤ 14 := by
  unfold parseCmdParams at h
  split at h
  · simp at h
  · rename_i cmdTok rest heq
    split at h
    · cases h
      show (collectParams false rest).length ≤ 14
      have h15 := splitNChar_length_le 15 ' ' l
      rw [heq] at h15
      simp only [List.length_cons] at h15
      have hc := collectParams_length_le rest false
      omega
    · simp at h

lemma fromStr_ok_params_le {line : Str} {m : IrcMessage} (h : fromStr line = .ok m) :
    m.params.length ≤ 14 := by
  unfold fromStr at h
  split at h
  · simp at h
  · split at h
    · simp at h
    · split at h
      · simp at h
      · split at h
        · simp at h
        · rename_i command params heqCP
          split at h
          · simp at h
          · cases h
            exact parseCmdParams_ok_length heqCP

/-- C10: every line the parser accepts yields at most 14 parameters (the
space split produces at most 15 tokens, the first being the command), so
the `> MAX_PARAMS` branch of `validate_security` can never fire on a parsed
message; and a line with more than 14 space-separated tokens after the
command folds the excess, spaces included, into the final parameter even
without a leading colon. -/
theorem claim_C10_param_bound :
    (∀ (line : Str) (m : IrcMessage), fromStr line = .ok m →
      m.params.length ≤ 14 ∧ ¬ m.params.length > MAX_PARAMS) ∧
    fromStr (lit "CMD a1 a2 a3 a4 a5 a6 a7 a8 a9 a10 a11 a12 a13 a14 a15 a16") =
      .ok ⟨[], none, lit "CMD",
        [lit "a1", lit "a2", lit "a3", lit "a4", lit "a5", lit "a6", lit "a7",
         lit "a8", lit "a9", lit "a10", lit "a11", lit "a12", lit "a13",
         lit "a14 a15 a16"]⟩ := by
  constructor
  · intro line m h
    have := fromStr_ok_params_le h
    constructor
    · exact this
    · simp [MAX_PARAMS]
      omega
  · decide

/-- C10, witness: the universally quantified part applied to a concrete
accepted line. -/
theorem claim_C10_witness :
    fromStr (lit "PING x") = .ok ⟨[], none, lit "PING", [lit "x"]⟩ ∧
    (⟨[], none, lit "PING", [lit "x"]⟩ : IrcMessage).params.length ≤ 14 :=
  ⟨by decide, (claim_C10_param_bound.1 (lit "PING x") _ (by decide)).1⟩

/-! ## C1: serialize/parse round trip -/

/-- C1, counterexample: the message with the lowercase command `privmsg`
(no tags, no source, no params, so the claim's hypotheses on params and
tag values hold vacuously) serializes to `privmsg\r\n`, parses back with
the command uppercased, and reserializes to `PRIVMSG\r\n`, a different
line. -/
theorem claim_C1_counterexample :
    serialize ⟨[], none, lit "privmsg", []⟩ = lit "privmsg\r\n" ∧
    fromStr (serialize ⟨[], none, lit "privmsg", []⟩) =
      .ok ⟨[], none, lit "PRIVMSG", []⟩ ∧
    (fromStr (serialize ⟨[], none, lit "privmsg", []⟩)).map serialize ≠
      .ok (serialize ⟨[], none, lit "privmsg", []⟩) := by decide

lemma breakAtChar_none_of {ch : Char} {l : Str} (h : ∀ c ∈ l, c ≠ ch) :
    breakAtChar ch l = none := by
  induction l with
  | nil => rfl
  | cons c t ih =>
      have hc : c ≠ ch := h c (by simp)
      have ht := ih fun x hx => h x (by simp [hx])
      simp [breakAtChar, hc, ht]

lemma breakAtChar_first {ch : Char} {x y : Str} (h : ∀ c ∈ x, c ≠ ch) :
    breakAtChar ch (x ++ ch :: y) = some (x, y) := by
  induction x with
  | nil => simp [breakAtChar]
  | cons c t ih =>
      have hc : c ≠ ch := h c (by simp)
      have ht := ih fun c' hc' => h c' (by simp [hc'])
      simp [breakAtChar, hc, ht]

lemma breakAtChar_some_eq {ch : Char} {l a b : Str}
    (h : breakAtChar ch l = some (a, b)) : l = a ++ ch :: b := by
  induction l generalizing a with
  | nil => simp [breakAtChar] at h
  | cons c t ih =>
      by_cases hc : c = ch
      · simp [breakAtChar, hc] at h
        obtain ⟨ha, hb⟩ := h
        simp [← ha, ← hb, hc]
      · simp only [breakAtChar, if_neg hc] at h
        cases hb : breakAtChar ch t with
        | none => rw [hb] at h; simp at h
        | some ab =>
            obtain ⟨a', b'⟩ := ab
            rw [hb] at h
            simp at h
            obtain ⟨ha, hb'⟩ := h
            have := ih (a := a') (by rw [hb, hb'])
            rw [← ha, this]
            simp

lemma splitOnChar_no_sep {ch : Char} {s : Str} (hs : ∀ c ∈ s, c ≠ ch) :
    splitOnChar ch s = [s] := by
  induction s with
  | nil => rfl
  | cons c t ih =>
      have hc : c ≠ ch := hs c (by simp)
      have ht := ih fun c' hc' => hs c' (by simp [hc'])
      simp [splitOnChar, hc, ht]

lemma splitOnChar_append_sep {ch : Char} {s : Str} (hs : ∀ c ∈ s, c ≠ ch) (rest : Str) :
    splitOnChar ch (s ++ ch :: rest) = s :: splitOnChar ch rest := by
  induction s with
  | nil => simp [splitOnChar]
  | cons c t ih =>
      have hc : c ≠ ch := hs c (by simp)
      have ht := ih fun c' hc' => hs c' (by simp [hc'])
      simp only [List.cons_append]
      rw [show splitOnChar ch (c :: (t ++ ch :: rest)) =
            match splitOnChar ch (t ++ ch :: rest) with
            | [] => [[c]]
            | h :: t' => (c :: h) :: t'
          from by simp [splitOnChar, hc], ht]

lemma splitOnChar_intercalateChar {ch : Char} :
    ∀ (items : List Str), items ≠ [] → (∀ s ∈ items, ∀ c ∈ s, c ≠ ch) →
    splitOnChar ch (intercalateChar ch items) = items := by
  intro items
  induction items with
  | nil => intro h; exact absurd rfl h
  | cons s rest ih =>
      intro _ hfree
      cases rest with
      | nil => exact splitOnChar_no_sep (hfree s (by simp))
      | cons s2 rest2 =>
          have htail := ih (by simp) fun s' hs' => hfree s' (by simp [hs'])
          show splitOnChar ch (s ++ ch :: intercalateChar ch (s2 :: rest2)) = s :: s2 :: rest2
          rw [splitOnChar_append_sep (hfree s (by simp)), htail]

lemma splitNChar_ne_nil {n : Nat} (hn : 1 ≤ n) (ch : Char) (l : Str) :
    splitNChar n ch l ≠ [] := by
  rcases n with _ | _ | k
  · omega
  · simp [splitNChar]
  · cases hb : breakAtChar ch l with
    | none => simp [splitNChar, hb]
    | some ab => obtain ⟨a, b⟩ := ab; simp [splitNChar, hb]

lemma splitNChar_join : ∀ (n : Nat), 1 ≤ n → ∀ (l : Str),
    joinSpace (splitNChar n ' ' l) = l := by
  intro n
  induction n using Nat.strong_induction_on with
  | _ n ih =>
      intro hn l
      rcases n with _ | _ | k
      · omega
      · simp [splitNChar, joinSpace]
      · cases hb : breakAtChar ' ' l with
        | none => simp [splitNChar, hb, joinSpace]
        | some ab =>
            obtain ⟨a, b⟩ := ab
            have heq := breakAtChar_some_eq hb
            have hne := splitNChar_ne_nil (n := k + 1) (by omega) ' ' b
            have hjoin := ih (k + 1) (by omega) (by omega) b
            simp only [splitNChar, hb]
            cases hs : splitNChar (k + 1) ' ' b with
            | nil => exact absurd hs hne
            | cons j js =>
                rw [hs] at hjoin
                show a ++ ' ' :: joinSpace (j :: js) = l
                rw [hjoin, heq]

lemma splitNChar_no_sep {n : Nat} (hn : 1 ≤ n) {ch : Char} {l : Str}
    (h : ∀ c ∈ l, c ≠ ch) : splitNChar n ch l = [l] := by
  rcases n with _ | _ | k
  · omega
  · rfl
  · simp [splitNChar, breakAtChar_none_of h]

/-- Splitting the `ch`-intercalation of tokens whose initial segment is
separator-free: the separator budget left over applies to the last token. -/
lemma splitNChar_intercalate_snoc {ch : Char} :
    ∀ (ts : List Str) (last : Str) (N : Nat), ts.length < N →
    (∀ t ∈ ts, ∀ c ∈ t, c ≠ ch) →
    splitNChar N ch (intercalateChar ch (ts ++ [last])) =
      ts ++ splitNChar (N - ts.length) ch last := by
  intro ts
  induction ts with
  | nil => intro last N _ _; simp [intercalateChar]
  | cons t ts ih =>
      intro last N hlen hfree
      obtain ⟨y, ys, hys⟩ : ∃ y ys, ts ++ [last] = y :: ys := by
        cases ts <;> exact ⟨_, _, rfl⟩
      rcases N with _ | _ | k
      · omega
      · simp at hlen
      · have hstep : intercalateChar ch ((t :: ts) ++ [last]) =
            t ++ ch :: intercalateChar ch (ts ++ [last]) := by
          rw [List.cons_append, hys]
          rfl
        rw [hstep]
        have hbr := breakAtChar_first
          (x := t) (y := intercalateChar ch (ts ++ [last])) (hfree t (by simp))
        have ihh := ih last (k + 1) (by simp at hlen; omega)
          (fun s hs => hfree s (by simp [hs]))
        simp only [splitNChar, hbr, ihh]
        have harith : k + 1 + 1 - (t :: ts).length = k + 1 - ts.length := by
          simp only [List.length_cons]
          omega
        rw [harith]
        simp

lemma splitNChar_cons_head (k : Nat) (hk : 1 ≤ k) (ch c : Char) (l : Str) (hc : c ≠ ch) :
    ∃ t ts, splitNChar k ch (c :: l) = (c :: t) :: ts := by
  rcases k with _ | _ | k
  · omega
  · exact ⟨l, [], rfl⟩
  · show ∃ t ts,
      (match breakAtChar ch (c :: l) with
       | none => [c :: l]
       | some (a, b) => a :: splitNChar (k + 1) ch b) = (c :: t) :: ts
    rw [show breakAtChar ch (c :: l) =
          (match breakAtChar ch l with
           | none => none
           | some (a, b) => some (c :: a, b)) from by simp [breakAtChar, hc]]
    cases hb : breakAtChar ch l with
    | none => exact ⟨l, [], rfl⟩
    | some ab => obtain ⟨a, b⟩ := ab; exact ⟨a, splitNChar (k + 1) ch b, rfl⟩

lemma trimCrlfRev_of_head_ne {l : Str} (h : l.head? ≠ some '\n') : trimCrlfRev l = l := by
  cases l with
  | nil => rfl
  | cons c1 t =>
      cases t with
      | nil => rfl
      | cons c2 rest =>
          have hc : c1 ≠ '\n' := by simpa using h
          simp [trimCrlfRev, hc]

lemma trimEndCrlf_body {body : Str} (h : body.getLast? ≠ some '\n') :
    trimEndCrlf (body ++ ['\r', '\n']) = body := by
  unfold trimEndCrlf
  have h1 : (body ++ ['\r', '\n']).reverse = '\n' :: '\r' :: body.reverse := by simp
  rw [h1, show trimCrlfRev ('\n' :: '\r' :: body.reverse) = trimCrlfRev body.reverse from by
        simp [trimCrlfRev],
      trimCrlfRev_of_head_ne (by rwa [List.head?_reverse]), List.reverse_reverse]

lemma tag_key_char_ne {c : Char}
    (h : (isAsciiAlphanumeric c || c == '-' || c == '/' || c == '.' || c == '_' || c == '+')
      = true) :
    c ≠ ' ' ∧ c ≠ ';' ∧ c ≠ '=' := by
  refine ⟨?_, ?_, ?_⟩ <;> rintro rfl <;> revert h <;> decide

lemma is_valid_tag_key_spec {key : Str} (h : is_valid_tag_key key = true) :
    key ≠ [] ∧ key.length ≤ 64 ∧ ∀ c ∈ key, c ≠ ' ' ∧ c ≠ ';' ∧ c ≠ '=' := by
  unfold is_valid_tag_key at h
  split at h
  · simp at h
  · rename_i hcond
    rw [List.all_eq_true] at h
    refine ⟨?_, ?_, fun c hc => tag_key_char_ne (h c hc)⟩
    · intro hnil
      exact hcond (Bool.or_eq_true _ _ |>.mpr (Or.inl (by simp [hnil])))
    · by_contra hlen
      exact hcond (Bool.or_eq_true _ _ |>.mpr (Or.inr (decide_eq_true (by
        unfold MAX_CAPABILITY_NAME_LENGTH
        omega))))

lemma is_valid_command_spec {cmd : Str} (h : is_valid_command cmd = true) :
    cmd ≠ [] ∧ cmd.length ≤ 32 ∧
      ∀ c ∈ cmd, isAsciiAlphabetic c = true ∨ isAsciiDigit c = true := by
  unfold is_valid_command at h
  split at h
  · simp at h
  · rename_i hcond
    split at h
    · simp at h
    · rename_i hcls
      refine ⟨?_, ?_, ?_⟩
      · intro hnil
        exact hcond (Bool.or_eq_true _ _ |>.mpr (Or.inl (by simp [hnil])))
      · by_contra hlen
        exact hcond (Bool.or_eq_true _ _ |>.mpr (Or.inr (decide_eq_true (by omega))))
      · intro c hc
        cases ha : cmd.all isAsciiAlphabetic with
        | true => exact Or.inl (List.all_eq_true.mp ha c hc)
        | false =>
            cases hn : cmd.all isAsciiDigit with
            | true => exact Or.inr (List.all_eq_true.mp hn c hc)
            | false => exact absurd (by rw [ha, hn]; simp) hcls

lemma alnum_char_ne {c : Char}
    (h : isAsciiAlphabetic c = true ∨ isAsciiDigit c = true) :
    c ≠ ' ' ∧ c ≠ '@' ∧ c ≠ ':' ∧ c ≠ '\n' := by
  refine ⟨?_, ?_, ?_, ?_⟩ <;> rintro rfl <;> rcases h with h | h <;> revert h <;> decide

lemma mem_concatMap {f : Char → Str} {x : Char} :
    ∀ {v : Str}, x ∈ concatMap f v → ∃ c ∈ v, x ∈ f c := by
  intro v
  induction v with
  | nil => intro h; simp [concatMap] at h
  | cons c t ih =>
      intro h
      rw [show concatMap f (c :: t) = f c ++ concatMap f t from rfl, List.mem_append] at h
      rcases h with h | h
      · exact ⟨c, by simp, h⟩
      · obtain ⟨c', hc', hx⟩ := ih h
        exact ⟨c', by simp [hc'], hx⟩

lemma escape_chars {v : Str} {x : Char} (hx : x ∈ escape_tag_value v) :
    x ≠ ' ' ∧ x ≠ ';' := by
  rw [escape_eq_concatMap] at hx
  obtain ⟨c, _, hxf⟩ := mem_concatMap hx
  revert hxf
  unfold encE
  split_ifs with h1 h2 h3 h4 h5 <;> intro hxf <;> simp at hxf
  · subst hxf; decide
  · rcases hxf with rfl | rfl <;> decide
  · rcases hxf with rfl | rfl <;> decide
  · rcases hxf with rfl | rfl <;> decide
  · rcases hxf with rfl | rfl <;> decide
  · subst hxf; exact ⟨h3, h2⟩

lemma encE_ne_nil (c : Char) : encE c ≠ [] := by
  unfold encE
  split_ifs <;> simp

lemma escape_ne_nil {v : Str} (h : v ≠ []) : escape_tag_value v ≠ [] := by
  rw [escape_eq_concatMap]
  cases v with
  | nil => exact absurd rfl h
  | cons c t =>
      show encE c ++ concatMap encE t ≠ []
      simp [encE_ne_nil c]

lemma intercalate_cons_map {ch : Char} : ∀ (ys : List Str) (x : Str),
    intercalateChar ch (x :: ys) = x ++ (ys.map (fun y => ch :: y)).flatten := by
  intro ys
  induction ys with
  | nil => intro x; simp [intercalateChar]
  | cons y ys ih =>
      intro x
      show x ++ ch :: intercalateChar ch (y :: ys) = _
      rw [ih y]
      simp

lemma serializeParams_snoc (qs : List Str) (p : Str) :
    serializeParams (qs ++ [p]) =
      (qs.map (fun q => ' ' :: q)).flatten ++ serializeParams [p] := by
  induction qs with
  | nil => simp
  | cons q qs ih =>
      obtain ⟨y, ys, hys⟩ : ∃ y ys, qs ++ [p] = y :: ys := by
        cases qs <;> exact ⟨_, _, rfl⟩
      have hstep : serializeParams (q :: (qs ++ [p])) =
          ' ' :: q ++ serializeParams (qs ++ [p]) := by
        rw [hys]
        rfl
      rw [List.cons_append, hstep, ih]
      simp

lemma collectParams_cons_plain {q : Str} (hq : q.head? ≠ some ':')
    (b : Bool) (rest : List Str) :
    collectParams b (q :: rest) = q :: collectParams true rest := by
  have hcond : ¬(b ∧ q.head? = some ':') := fun hc => hq hc.2
  simp [collectParams, hcond]

lemma collectParams_plain {toks : List Str} (h : ∀ t ∈ toks, t.head? ≠ some ':') :
    ∀ b, collectParams b toks = toks := by
  induction toks with
  | nil => intro b; rfl
  | cons t rest ih =>
      intro b
      rw [collectParams_cons_plain (h t (by simp)) b rest,
          ih fun t' ht' => h t' (by simp [ht'])]

lemma collectParams_prefix_plain {qs : List Str} (hq : ∀ q ∈ qs, q.head? ≠ some ':') :
    ∀ (rest : List Str) (b : Bool), qs ≠ [] →
    collectParams b (qs ++ rest) = qs ++ collectParams true rest := by
  induction qs with
  | nil => intro rest b h; exact absurd rfl h
  | cons q qs ih =>
      intro rest b _
      rw [List.cons_append, collectParams_cons_plain (hq q (by simp))]
      cases qs with
      | nil => simp
      | cons q2 qs2 =>
          rw [ih (fun x hx => hq x (by simp [hx])) rest true (by simp)]
          rfl

lemma collectParams_trailing {T0 : Str} {Ts : List Str} (hT : T0.head? = some ':') :
    collectParams true (T0 :: Ts) = [(joinSpace (T0 :: Ts)).drop 1] := by
  simp [collectParams, hT]

lemma alInsert_append {α : Type} {k : Str} {v : α} :
    ∀ {l : List (Str × α)}, (∀ kv ∈ l, kv.1 ≠ k) → alInsert k v l = l ++ [(k, v)] := by
  intro l
  induction l with
  | nil => intro _; rfl
  | cons kv' rest ih =>
      intro h
      obtain ⟨k', v'⟩ := kv'
      have hk : k' ≠ k := h (k', v') (by simp)
      simp [alInsert, hk, ih fun x hx => h x (by simp [hx])]

lemma mem_intercalateChar {ch : Char} {x : Char} :
    ∀ {items : List Str}, x ∈ intercalateChar ch items →
      x = ch ∨ ∃ s ∈ items, x ∈ s := by
  intro items
  induction items with
  | nil => intro h; simp [intercalateChar] at h
  | cons s rest ih =>
      intro h
      cases rest with
      | nil =>
          exact Or.inr ⟨s, by simp, h⟩
      | cons s2 rest2 =>
          rw [show intercalateChar ch (s :: s2 :: rest2) =
                s ++ ch :: intercalateChar ch (s2 :: rest2) from rfl] at h
          rcases List.mem_append.mp h with h | h
          · exact Or.inr ⟨s, by simp, h⟩
          · rcases List.mem_cons.mp h with h | h
            · exact Or.inl h
            · rcases ih h with h | ⟨s', hs', hx⟩
              · exact Or.inl h
              · exact Or.inr ⟨s', by simp [hs'], hx⟩

/-- Characters of one serialized tag are never a space, and never a
semicolon. -/
lemma serializeTagItem_chars {kv : Str × Option Str} {x : Char}
    (hvalid : is_valid_tag_key kv.1 = true) (hx : x ∈ serializeTagItem kv) :
    x ≠ ' ' ∧ x ≠ ';' := by
  obtain ⟨k, v⟩ := kv
  have hkey := (is_valid_tag_key_spec hvalid).2.2
  cases v with
  | none =>
      have := hkey x hx
      exact ⟨this.1, this.2.1⟩
  | some val =>
      rw [show serializeTagItem (k, some val) = k ++ '=' :: escape_tag_value val from rfl] at hx
      rcases List.mem_append.mp hx with h | h
      · have := hkey x h
        exact ⟨this.1, this.2.1⟩
      · rcases List.mem_cons.mp h with rfl | h
        · decide
        · exact escape_chars h

lemma parseTagList_serialized :
    ∀ (tags acc : List (Str × Option Str)),
    (∀ kv ∈ tags, is_valid_tag_key kv.1 = true) →
    (∀ kv ∈ tags, ∀ v, kv.2 = some v → v ≠ [] ∧ noBadSeq v = true) →
    ((acc ++ tags).map Prod.fst).Nodup →
    parseTagList acc (tags.map serializeTagItem) = .ok (acc ++ tags) := by
  intro tags
  induction tags with
  | nil => intro acc _ _ _; simp [parseTagList]
  | cons kv tags ih =>
      obtain ⟨k, v⟩ := kv
      intro acc hvalid hvals hnodup
      have hkvalid : is_valid_tag_key k = true := hvalid (k, v) (by simp)
      have hkspec := is_valid_tag_key_spec hkvalid
      have hknotacc : ∀ kv' ∈ acc, kv'.1 ≠ k := by
        intro kv' hkv' heq
        have hmap : ((acc ++ (k, v) :: tags).map Prod.fst) =
            acc.map Prod.fst ++ k :: tags.map Prod.fst := by simp
        rw [hmap] at hnodup
        rcases List.nodup_append.mp hnodup with ⟨_, _, hdisj⟩
        exact hdisj (a := k) (heq ▸ List.mem_map_of_mem Prod.fst hkv') (by simp)
      have hnodup' : ((acc ++ [(k, v)] ++ tags).map Prod.fst).Nodup := by
        rw [List.append_assoc]
        simpa using hnodup
      have hstep : alInsert k v acc ++ tags = acc ++ (k, v) :: tags := by
        rw [alInsert_append hknotacc]
        simp
      cases v with
      | none =>
          have hbr : breakAtChar '=' k = none :=
            breakAtChar_none_of fun c hc => (hkspec.2.2 c hc).2.2
          show parseTagList acc (k :: tags.map serializeTagItem) = _
          rw [show parseTagList acc (k :: tags.map serializeTagItem) =
                if k.isEmpty then parseTagList acc (tags.map serializeTagItem)
                else
                  match breakAtChar '=' k with
                  | some (key, valueStr) =>
                      if is_valid_tag_key key then
                        parseTagList
                          (alInsert key
                            (if valueStr.isEmpty then none
                             else some (unescape_tag_value valueStr)) acc)
                          (tags.map serializeTagItem)
                      else .error (.SecurityViolation (lit "Invalid tag key: " ++ key))
                  | none =>
                      if is_valid_tag_key k then
                        parseTagList (alInsert k none acc) (tags.map serializeTagItem)
                      else .error (.SecurityViolation (lit "Invalid tag key: " ++ k))
              from rfl,
             if_neg (by simp [hkspec.1]), hbr, if_pos hkvalid,
             ih (alInsert k none acc)
               (fun x hx => hvalid x (by simp [hx]))
               (fun x hx => hvals x (by simp [hx]))
               (by rw [show alInsert k none acc = acc ++ [(k, none)] from
                         alInsert_append hknotacc]
                   exact (by simpa using hnodup : ((acc ++ [(k, (none : Option Str))] ++ tags).map Prod.fst).Nodup)),
             show alInsert k none acc ++ tags = acc ++ (k, none) :: tags from by
               rw [alInsert_append hknotacc]; simp]
      | some val =>
          have hval := hvals (k, some val) (by simp) val rfl
          have hesc_ne : escape_tag_value val ≠ [] := escape_ne_nil hval.1
          have hbr : breakAtChar '=' (k ++ '=' :: escape_tag_value val) =
              some (k, escape_tag_value val) :=
            breakAtChar_first fun c hc => (hkspec.2.2 c hc).2.2
          have hne_item : (k ++ '=' :: escape_tag_value val).isEmpty = false := by
            cases k <;> simp
          show parseTagList acc
              ((k ++ '=' :: escape_tag_value val) :: tags.map serializeTagItem) = _
          rw [show parseTagList acc
                ((k ++ '=' :: escape_tag_value val) :: tags.map serializeTagItem) =
                if (k ++ '=' :: escape_tag_value val).isEmpty then
                  parseTagList acc (tags.map serializeTagItem)
                else
                  match breakAtChar '=' (k ++ '=' :: escape_tag_value val) with
                  | some (key, valueStr) =>
                      if is_valid_tag_key key then
                        parseTagList
                          (alInsert key
                            (if valueStr.isEmpty then none
                             else some (unescape_tag_value valueStr)) acc)
                          (tags.map serializeTagItem)
                      else .error (.SecurityViolation (lit "Invalid tag key: " ++ key))
                  | none =>
                      if is_valid_tag_key (k ++ '=' :: escape_tag_value val) then
                        parseTagList (alInsert (k ++ '=' :: escape_tag_value val) none acc)
                          (tags.map serializeTagItem)
                      else .error (.SecurityViolation
                        (lit "Invalid tag key: " ++ (k ++ '=' :: escape_tag_value val)))
              from rfl,
             hne_item, hbr]
          simp only [Bool.false_eq_true, if_false]
          rw [if_pos hkvalid,
              show (if (escape_tag_value val).isEmpty then none
                    else some (unescape_tag_value (escape_tag_value val))) =
                  some val from by
                rw [if_neg (by simpa using hesc_ne),
                    unescape_escape_of_noBadSeq val hval.2],
              ih (alInsert k (some val) acc)
                (fun x hx => hvalid x (by simp [hx]))
                (fun x hx => hvals x (by simp [hx]))
                (by rw [show alInsert k (some val) acc = acc ++ [(k, some val)] from
                          alInsert_append hknotacc]
                    exact (by simpa using hnodup :
                      ((acc ++ [(k, some val)] ++ tags).map Prod.fst).Nodup)),
              show alInsert k (some val) acc ++ tags = acc ++ (k, some val) :: tags from by
                rw [alInsert_append hknotacc]; simp]

lemma parseTags_none {l : Str} (hl : l.head? ≠ some '@') : parseTags l = .ok ([], l) := by
  cases l with
  | nil => rfl
  | cons c t =>
      have hc : c ≠ '@' := by simpa using hl
      simp [parseTags, hc]

lemma parseSrc_none {l : Str} (hl : l.head? ≠ some ':') : parseSrc l = .ok (none, l) := by
  cases l with
  | nil => rfl
  | cons c t =>
      have hc : c ≠ ':' := by simpa using hl
      simp [parseSrc, hc]

lemma parseSrc_some (p rest : Str) (hp : ∀ c ∈ p, c ≠ ' ') :
    parseSrc (':' :: (p ++ ' ' :: rest)) = .ok (some p, rest) := by
  have hbr := breakAtChar_first (x := p) (y := rest) hp
  have hany : p.any (· = ' ') = false := by
    rw [List.any_eq_false]
    intro c hc
    simpa using hp c hc
  simp [parseSrc, hbr, hany]

lemma parseTags_roundtrip (tags : List (Str × Option Str)) (rest : Str)
    (hvalid : ∀ kv ∈ tags, is_valid_tag_key kv.1 = true)
    (hvals : ∀ kv ∈ tags, ∀ v, kv.2 = some v → v ≠ [] ∧ noBadSeq v = true)
    (hnodup : (tags.map Prod.fst).Nodup)
    (hne : tags ≠ [])
    (hlen : (intercalateChar ';' (tags.map serializeTagItem)).length ≤ MAX_TAG_LENGTH) :
    parseTags ('@' :: (intercalateChar ';' (tags.map serializeTagItem) ++ ' ' :: rest)) =
      .ok (tags, rest) := by
  have hchars : ∀ x ∈ intercalateChar ';' (tags.map serializeTagItem), x ≠ ' ' := by
    intro x hx
    rcases mem_intercalateChar hx with rfl | ⟨s, hs, hxs⟩
    · decide
    · obtain ⟨kv, hkv, rfl⟩ := List.mem_map.mp hs
      exact (serializeTagItem_chars (hvalid kv hkv) hxs).1
  have hsemi : ∀ s ∈ tags.map serializeTagItem, ∀ c ∈ s, c ≠ ';' := by
    intro s hs c hc
    obtain ⟨kv, hkv, rfl⟩ := List.mem_map.mp hs
    exact (serializeTagItem_chars (hvalid kv hkv) hc).2
  have hbr := breakAtChar_first
    (x := intercalateChar ';' (tags.map serializeTagItem)) (y := rest) hchars
  have hsplit := splitOnChar_intercalateChar (tags.map serializeTagItem)
    (by simpa using hne) hsemi
  have hlist := parseTagList_serialized tags [] hvalid hvals (by simpa using hnodup)
  simp only [List.nil_append] at hlist
  simp [parseTags, hbr, Nat.not_lt.mpr hlen, hsplit, hlist]

lemma parseCmdParams_eq_of_split {l cmdTok : Str} {rest : List Str}
    (hsplit : splitNChar 15 ' ' l = cmdTok :: rest) :
    parseCmdParams l =
      if is_valid_command (rustToUppercase cmdTok) then
        .ok (rustToUppercase cmdTok, collectParams false rest)
      else .error (.SecurityViolation (lit "Invalid command: " ++ rustToUppercase cmdTok)) := by
  unfold parseCmdParams
  rw [hsplit]

lemma parseCmdParams_roundtrip (command : Str) (params : List Str)
    (hcmd : is_valid_command command = true)
    (hupper : rustToUppercase command = command)
    (hcount : params.length ≤ 14)
    (hcolon : ∀ p ∈ params, p.head? ≠ some ':')
    (hinit : ∀ p ∈ params.dropLast, ∀ c ∈ p, c ≠ ' ')
    (hsingle : params.length = 1 → ∀ p ∈ params, ∀ c ∈ p, c ≠ ' ') :
    parseCmdParams (command ++ serializeParams params) = .ok (command, params) := by
  have hcmdspec := is_valid_command_spec hcmd
  have hcmdfree : ∀ c ∈ command, c ≠ ' ' :=
    fun c hc => (alnum_char_ne (hcmdspec.2.2 c hc)).1
  rcases List.eq_nil_or_concat params with rfl | ⟨qs, p, rfl⟩
  · have hsplit : splitNChar 15 ' ' (command ++ serializeParams []) = [command] := by
      rw [show serializeParams [] = [] from rfl, List.append_nil]
      exact splitNChar_no_sep (by omega) hcmdfree
    rw [parseCmdParams_eq_of_split hsplit, hupper, if_pos hcmd]
    rfl
  · rw [List.concat_eq_append] at hcount hcolon hinit hsingle ⊢
    have hlq : qs.length + 1 ≤ 14 := by simpa using hcount
    have hqfree : ∀ q ∈ qs, ∀ c ∈ q, c ≠ ' ' := by
      intro q hq
      exact hinit q (by rw [List.dropLast_concat]; exact hq)
    have htsfree : ∀ t ∈ command :: qs, ∀ c ∈ t, c ≠ ' ' := by
      intro t ht
      rcases List.mem_cons.mp ht with rfl | ht
      · exact hcmdfree
      · exact hqfree t ht
    have htslen : (command :: qs).length < 15 := by
      simp only [List.length_cons]
      omega
    by_cases hps : p.any (fun c => c == ' ') = true
    · -- the last parameter contains a space: serialized with a leading colon
      have hqs_ne : qs ≠ [] := by
        rintro rfl
        obtain ⟨c, hc, hc'⟩ := List.any_eq_true.mp hps
        exact hsingle (by simp) p (by simp) c hc (by simpa using hc')
      have hser : command ++ serializeParams (qs ++ [p]) =
          intercalateChar ' ' ((command :: qs) ++ [':' :: p]) := by
        rw [serializeParams_snoc, show serializeParams [p] = ' ' :: ':' :: p from by
              simp [serializeParams, hps],
            show (command :: qs) ++ [':' :: p] = command :: (qs ++ [':' :: p]) from rfl,
            intercalate_cons_map]
        simp
      have hsplit0 := splitNChar_intercalate_snoc (command :: qs) (':' :: p) 15 htslen htsfree
      obtain ⟨t0, ts0, hhead⟩ :=
        splitNChar_cons_head (15 - (command :: qs).length)
          (by simp only [List.length_cons]; omega) ' ' ':' p (by decide)
      have hsplit : splitNChar 15 ' ' (command ++ serializeParams (qs ++ [p])) =
          command :: (qs ++ ((':' :: t0) :: ts0)) := by
        rw [hser, hsplit0, hhead]
        rfl
      rw [parseCmdParams_eq_of_split hsplit, hupper, if_pos hcmd]
      have hjoin : joinSpace ((':' :: t0) :: ts0) = ':' :: p := by
        rw [← hhead]
        exact splitNChar_join (15 - (command :: qs).length)
          (by simp only [List.length_cons]; omega) (':' :: p)
      rw [collectParams_prefix_plain
            (fun q hq => hcolon q (by simp [hq])) _ false hqs_ne,
          collectParams_trailing (by simp), hjoin]
      rfl
    · -- the last parameter has no space: all tokens are plain
      have hpfree : ∀ c ∈ p, c ≠ ' ' := by
        intro c hc heq
        subst heq
        exact hps (List.any_eq_true.mpr ⟨' ', hc, by simp⟩)
      have hser : command ++ serializeParams (qs ++ [p]) =
          intercalateChar ' ' ((command :: qs) ++ [p]) := by
        rw [serializeParams_snoc, show serializeParams [p] = ' ' :: p from by
              have hh : (p.head? == some ':') = false := by
                cases hp : p.head? with
                | none => rfl
                | some c =>
                    have := hcolon p (by simp)
                    rw [hp] at this
                    simpa using fun he => this (by rw [he])
              simp [serializeParams, hps, hh],
            show (command :: qs) ++ [p] = command :: (qs ++ [p]) from rfl,
            intercalate_cons_map]
        simp
      have hsplit : splitNChar 15 ' ' (command ++ serializeParams (qs ++ [p])) =
          command :: (qs ++ [p]) := by
        rw [hser, splitNChar_intercalate_snoc (command :: qs) p 15 htslen htsfree,
            splitNChar_no_sep (by simp only [List.length_cons]; omega) hpfree]
        rfl
      rw [parseCmdParams_eq_of_split hsplit, hupper, if_pos hcmd,
          collectParams_plain hcolon]

lemma checkParams_ok {maxLen : Nat} :
    ∀ {ps : List Str},
    (∀ p ∈ ps, p.length ≤ maxLen ∧
      ∀ c ∈ p, isAsciiChar c = true ∧ c ≠ '\x00' ∧ c ≠ '\r' ∧ c ≠ '\n') →
    checkParams maxLen ps = .ok () := by
  intro ps
  induction ps with
  | nil => intro _; rfl
  | cons p rest ih =>
      intro h
      have hp := h p (by simp)
      have hlen : ¬ p.length > maxLen := by omega
      have hany : p.any (fun c => c == '\x00' || c == '\r' || c == '\n') = false := by
        rw [List.any_eq_false]
        intro c hc
        have hcc := hp.2 c hc
        simp [hcc.2.1, hcc.2.2.1, hcc.2.2.2]
      have hall : p.all isAsciiChar = true :=
        List.all_eq_true.mpr fun c hc => (hp.2 c hc).1
      simp only [checkParams, if_neg hlen, hany, hall]
      simpa using ih fun p' hp' => h p' (by simp [hp'])

lemma checkSrc_ok {src : Option Str}
    (h : ∀ p ∈ src.toList, p.length ≤ 255 ∧ ∀ c ∈ p, c ≠ ' ' ∧ c ≠ '\x00') :
    checkSrc src = .ok () := by
  cases src with
  | none => rfl
  | some p =>
      have hp := h p (by simp)
      have h1 : ¬ p.length > 255 := by omega
      have h2 : p.any (fun c => c == '\x00') = false :=
        List.any_eq_false.mpr fun c hc => by simp [(hp.2 c hc).2]
      have h3 : p.any (fun c => c == ' ') = false :=
        List.any_eq_false.mpr fun c hc => by simp [(hp.2 c hc).1]
      simp [checkSrc, h1, h2, h3]

lemma validate_security_ok (m : IrcMessage)
    (hcmdlen : m.command.length ≤ 32)
    (hcount : m.params.length ≤ 15)
    (hparams : ∀ p ∈ m.params, p.length ≤ 512 ∧
      ∀ c ∈ p, isAsciiChar c = true ∧ c ≠ '\x00' ∧ c ≠ '\r' ∧ c ≠ '\n')
    (hsrc : ∀ p ∈ m.src.toList, p.length ≤ 255 ∧ ∀ c ∈ p, c ≠ ' ' ∧ c ≠ '\x00')
    (htags : totalTagLength m.tags ≤ MAX_TAG_LENGTH) :
    validate_security m = .ok () := by
  have hmax : ∀ p ∈ m.params,
      p.length ≤ (if m.command = lit "CAP" then 4096 else MAX_MESSAGE_LENGTH) ∧
      ∀ c ∈ p, isAsciiChar c = true ∧ c ≠ '\x00' ∧ c ≠ '\r' ∧ c ≠ '\n' := by
    intro p hp
    refine ⟨?_, (hparams p hp).2⟩
    have := (hparams p hp).1
    unfold MAX_MESSAGE_LENGTH
    split <;> omega
  unfold validate_security
  rw [if_neg (by omega), if_neg (by unfold MAX_PARAMS; omega), checkParams_ok hmax,
      checkSrc_ok hsrc, if_neg (by omega)]

lemma getLast?_some_mem {l : Str} (h : l ≠ []) :
    ∃ c ∈ l, l.getLast? = some c := by
  cases hg : l.getLast? with
  | none => exact absurd (List.getLast?_eq_none_iff.mp hg) h
  | some c => exact ⟨c, List.mem_of_mem_getLast? (by rw [hg]; simp), rfl⟩

lemma serializeBody_last (m : IrcMessage)
    (hcmd : is_valid_command m.command = true)
    (hparams : ∀ p ∈ m.params, ∀ c ∈ p, c ≠ '\n') :
    (serializeBody m).getLast? ≠ some '\n' := by
  have hspec := is_valid_command_spec hcmd
  unfold serializeBody
  rcases List.eq_nil_or_concat m.params with hnil | ⟨qs, p, hsnoc⟩
  · rw [hnil, show serializeParams [] = [] from rfl, List.append_nil,
        List.getLast?_append_of_ne_nil _ hspec.1]
    obtain ⟨c, hcm, hg⟩ := getLast?_some_mem hspec.1
    rw [hg]
    have := (alnum_char_ne (hspec.2.2 c hcm)).2.2.2
    simp [this]
  · rw [hsnoc, List.concat_eq_append, serializeParams_snoc]
    have hsp_ne : serializeParams [p] ≠ [] := by
      rw [show serializeParams [p] =
            if (p.any (fun c => c == ' ') || p.head? == some ':') = true
            then ' ' :: ':' :: p else ' ' :: p from rfl]
      split <;> simp
    rw [List.getLast?_append_of_ne_nil _ (by simp [hsp_ne]),
        List.getLast?_append_of_ne_nil _ hsp_ne,
        show serializeParams [p] =
          if (p.any (fun c => c == ' ') || p.head? == some ':') = true
          then ' ' :: ':' :: p else ' ' :: p from rfl]
    rcases List.eq_nil_or_concat p with hpnil | ⟨p0, c, hp0⟩
    · subst hpnil
      split <;> decide
    · have hc_ne : c ≠ '\n' := hparams p (by rw [hsnoc]; simp) c (by rw [hp0]; simp)
      have hlast : p.getLast? = some c := by
        rw [hp0, List.concat_eq_append, List.getLast?_append_of_ne_nil _ (by simp)]
        rfl
      have hp_ne : p ≠ [] := by rw [hp0]; simp
      split
      · rw [show (' ' :: ':' :: p : Str) = [' ', ':'] ++ p from rfl,
            List.getLast?_append_of_ne_nil _ hp_ne, hlast]
        simp [hc_ne]
      · rw [show (' ' :: p : Str) = [' '] ++ p from rfl,
            List.getLast?_append_of_ne_nil _ hp_ne, hlast]
        simp [hc_ne]

/-- The conditions under which a message is a fixed point of
serialize-then-parse: a valid uppercase command; a space-free source; valid,
distinct tag keys with nonempty values free of escape-clashing digrams; at
most 14 parameters, none starting with a colon, only the last containing
spaces (and then only if it is not the only one); the `validate_security`
size limits. -/
structure SerializableMessage (m : IrcMessage) : Prop where
  cmd_valid : is_valid_command m.command = true
  cmd_upper : rustToUppercase m.command = m.command
  src_ok : ∀ p ∈ m.src.toList, p.length ≤ 255 ∧ ∀ c ∈ p, c ≠ ' ' ∧ c ≠ '\x00'
  tags_valid : ∀ kv ∈ m.tags, is_valid_tag_key kv.1 = true
  tags_vals : ∀ kv ∈ m.tags, ∀ v ∈ kv.2.toList, v ≠ [] ∧ noBadSeq v = true
  tags_nodup : (m.tags.map Prod.fst).Nodup
  tags_sum_len : totalTagLength m.tags ≤ MAX_TAG_LENGTH
  tags_str_len : (intercalateChar ';' (m.tags.map serializeTagItem)).length ≤ MAX_TAG_LENGTH
  params_count : m.params.length ≤ 14
  params_ok : ∀ p ∈ m.params, p.length ≤ 512 ∧ p.head? ≠ some ':' ∧
      ∀ c ∈ p, isAsciiChar c = true ∧ c ≠ '\x00' ∧ c ≠ '\r' ∧ c ≠ '\n'
  params_init : ∀ p ∈ m.params.dropLast, ∀ c ∈ p, c ≠ ' '
  params_single : m.params.length = 1 → ∀ p ∈ m.params, ∀ c ∈ p, c ≠ ' '
  line_len : (serialize m).length ≤ MAX_MESSAGE_LENGTH + MAX_TAG_LENGTH

/-- Parsing inverts serialization on well-formed messages. -/
theorem fromStr_serialize (m : IrcMessage) (h : SerializableMessage m) :
    fromStr (serialize m) = .ok m := by
  obtain ⟨hcmd, hupper, hsrc, htv, htval, hnodup, htsum, htstr, hcount, hpok,
    hinit, hsingle, hlen⟩ := h
  have hspec := is_valid_command_spec hcmd
  have htrim : trimEndCrlf (serialize m) = serializeBody m :=
    trimEndCrlf_body
      (serializeBody_last m hcmd fun p hp c hc => ((hpok p hp).2.2 c hc).2.2.2)
  obtain ⟨hc, ct, hcmd_cons⟩ : ∃ hc ct, m.command = hc :: ct := by
    cases hcm : m.command with
    | nil => exact absurd hcm hspec.1
    | cons a b => exact ⟨a, b, rfl⟩
  have hc_alnum := hspec.2.2 hc (by rw [hcmd_cons]; simp)
  have hc_ne := alnum_char_ne hc_alnum
  have hcmdsp_head : (m.command ++ serializeParams m.params).head? = some hc := by
    rw [hcmd_cons]
    rfl
  have hshape : serializeBody m =
      (if m.tags.isEmpty then []
       else '@' :: intercalateChar ';' (m.tags.map serializeTagItem) ++ [' ']) ++
      ((match m.src with | some p => ':' :: p ++ [' '] | none => []) ++
       (m.command ++ serializeParams m.params)) := by
    unfold serializeBody
    simp [List.append_assoc]
  have hrest_head : ((match m.src with | some p => ':' :: p ++ [' '] | none => []) ++
      (m.command ++ serializeParams m.params)).head? ≠ some '@' := by
    cases m.src with
    | none =>
        rw [show ((match (none : Option Str) with
              | some p => ':' :: p ++ [' '] | none => []) : Str) = [] from rfl,
            List.nil_append, hcmdsp_head]
        simpa using hc_ne.2.1
    | some p =>
        rw [show ((match (some p : Option Str) with
              | some q => ':' :: q ++ [' '] | none => []) : Str) = ':' :: p ++ [' ']
            from rfl]
        simp
  have hA : parseTags (serializeBody m) =
      .ok (m.tags, (match m.src with | some p => ':' :: p ++ [' '] | none => []) ++
        (m.command ++ serializeParams m.params)) := by
    rw [hshape]
    by_cases htg : m.tags = []
    · rw [show (if m.tags.isEmpty then ([] : Str)
            else '@' :: intercalateChar ';' (m.tags.map serializeTagItem) ++ [' ']) = []
          from by rw [htg]; rfl, List.nil_append, htg]
      exact parseTags_none hrest_head
    · have hne' : m.tags.isEmpty = false := by
        cases htgc : m.tags with
        | nil => exact absurd htgc htg
        | cons a b => rfl
      rw [show (if m.tags.isEmpty then ([] : Str)
            else '@' :: intercalateChar ';' (m.tags.map serializeTagItem) ++ [' ']) =
            '@' :: intercalateChar ';' (m.tags.map serializeTagItem) ++ [' ']
          from by rw [hne']; rfl,
          show ('@' :: intercalateChar ';' (m.tags.map serializeTagItem) ++ [' ']) ++
              ((match m.src with | some p => ':' :: p ++ [' '] | none => []) ++
               (m.command ++ serializeParams m.params)) =
            '@' :: (intercalateChar ';' (m.tags.map serializeTagItem) ++
              ' ' :: ((match m.src with | some p => ':' :: p ++ [' '] | none => []) ++
               (m.command ++ serializeParams m.params))) from by simp]
      exact parseTags_roundtrip m.tags _ htv
        (fun kv hkv v hv => htval kv hkv v (by simp [hv])) hnodup htg htstr
  have hB : parseSrc ((match m.src with | some p => ':' :: p ++ [' '] | none => []) ++
        (m.command ++ serializeParams m.params)) =
      .ok (m.src, m.command ++ serializeParams m.params) := by
    cases hs : m.src with
    | none =>
        rw [show ((match (none : Option Str) with
              | some p => ':' :: p ++ [' '] | none => []) : Str) = [] from rfl,
            List.nil_append]
        exact parseSrc_none (by rw [hcmdsp_head]; simpa using hc_ne.2.2.1)
    | some p =>
        have hp := hsrc p (by simp [hs])
        rw [show ((match (some p : Option Str) with
              | some q => ':' :: q ++ [' '] | none => []) : Str) = ':' :: p ++ [' ']
            from rfl,
            show (':' :: p ++ [' ']) ++ (m.command ++ serializeParams m.params) =
              ':' :: (p ++ ' ' :: (m.command ++ serializeParams m.params)) from by simp]
        exact parseSrc_some p _ fun c hcp => (hp.2 c hcp).1
  have hC : parseCmdParams (m.command ++ serializeParams m.params) =
      .ok (m.command, m.params) :=
    parseCmdParams_roundtrip m.command m.params hcmd hupper hcount
      (fun p hp => (hpok p hp).2.1) hinit hsingle
  have hD : validate_security ⟨m.tags, m.src, m.command, m.params⟩ = .ok () :=
    validate_security_ok m hspec.2.1 (by omega)
      (fun p hp => ⟨(hpok p hp).1, (hpok p hp).2.2⟩) hsrc htsum
  unfold fromStr
  rw [if_neg (by omega), htrim]
  simp only [hA, hB, hC, hD]

/-- C1, amended: for every Message whose params and tag values are ASCII
and contain none of NUL, CR, LF, and which additionally has a valid
uppercase command, a space-free source, valid distinct tag keys, nonempty
tag values without a backslash immediately followed by `:`/`s`/`r`/`n`, at
most 14 params none of which starts with a colon, spaces only in a
non-sole last param, and sizes within the `validate_security` limits:
serializing, parsing the resulting line, and serializing again yields the
same line. -/
theorem claim_C1_round_trip (m : IrcMessage) (h : SerializableMessage m) :
    (fromStr (serialize m)).map serialize = .ok (serialize m) := by
  rw [fromStr_serialize m h]
  rfl

/-- C1, witness: the amended round trip applied to a concrete message with
tags (one escaped value with a space), a source, and a trailing parameter
containing spaces. -/
theorem claim_C1_witness :
    (fromStr (serialize ⟨[(lit "time", some (lit "now then")), (lit "msgid", none)],
        some (lit "nick!u@h"), lit "PRIVMSG", [lit "#chan", lit "hello world"]⟩)).map
        serialize =
      .ok (serialize ⟨[(lit "time", some (lit "now then")), (lit "msgid", none)],
        some (lit "nick!u@h"), lit "PRIVMSG", [lit "#chan", lit "hello world"]⟩) :=
  claim_C1_round_trip _ (by constructor <;> decide)

/-! ## Capability negotiation model (`src/capabilities.rs`) -/

/-- Rust `char::is_whitespace` (the Unicode White_Space code points). -/
def isRustWhitespace (c : Char) : Bool :=
  [9, 10, 11, 12, 13, 32, 0x85, 0xA0, 0x1680,
   0x2000, 0x2001, 0x2002, 0x2003, 0x2004, 0x2005, 0x2006, 0x2007, 0x2008, 0x2009, 0x200A,
   0x2028, 0x2029, 0x202F, 0x205F, 0x3000].contains c.toNat

/-- Accumulator-based splitter: `cur` is the current word, reversed. -/
def splitWsGo (cur : Str) : Str → List Str
  | [] => if cur.isEmpty then [] else [cur.reverse]
  | c :: rest =>
      if isRustWhitespace c then
        if cur.isEmpty then splitWsGo [] rest else cur.reverse :: splitWsGo [] rest
      else splitWsGo (c :: cur) rest

/-- Rust `str::split_whitespace`: split on whitespace runs, dropping empty
pieces. -/
def rustSplitWhitespace (l : Str) : List Str := splitWsGo [] l

/-- Rust `str::trim` (both ends, Unicode whitespace). -/
def rustTrim (l : Str) : Str :=
  ((l.dropWhile isRustWhitespace).reverse.dropWhile isRustWhitespace).reverse

/-- Rust `u16` / `u32` / `u64` `from_str`: optional leading `+`, at least
one digit, value within the type's bound. -/
def stripPlus : Str → Str
  | [] => []
  | c :: rest => if c = '+' then rest else c :: rest

/-- Decimal digits to a number. -/
def digitsToNat (s : Str) : Nat := s.foldl (fun acc c => acc * 10 + (c.toNat - 48)) 0

/-- Rust unsigned-integer parsing with an upper bound. -/
def rustParseNat (bound : Nat) (s : Str) : Option Nat :=
  if (stripPlus s).isEmpty then none
  else if (stripPlus s).all isAsciiDigit then
    if digitsToNat (stripPlus s) ≤ bound then some (digitsToNat (stripPlus s)) else none
  else none

def U16_MAX : Nat := 65535
def U32_MAX : Nat := 4294967295
def U64_MAX : Nat := 18446744073709551615

/-- `CapabilitySpec` from `src/capabilities.rs`. -/
structure CapabilitySpec where
  name : Str
  value : Option Str
  enabled : Bool
deriving DecidableEq, Repr

/-- `StsPolicy`; `duration` in seconds, `expires_at` an absolute timestamp
(`SystemTime` modelled as seconds, the current time passed explicitly). -/
structure StsPolicy where
  duration : Nat
  port : Option Nat
  preload : Bool
  expires_at : Nat
deriving DecidableEq, Repr

/-- `CapabilityHandler`; the `HashMap`s are association lists. -/
structure CapabilityHandler where
  version : Nat
  available_caps : List (Str × CapabilitySpec)
  requested_caps : List Str
  enabled_caps : List (Str × CapabilitySpec)
  negotiation_complete : Bool
  sts_policies : List (Str × StsPolicy)
deriving DecidableEq, Repr

/-- `CapabilityHandler::new`. -/
def CapabilityHandler.new : CapabilityHandler := ⟨302, [], [], [], false, []⟩

/-- `get_essential_capabilities` (ignores the handler state in the source). -/
def get_essential_capabilities : List Str :=
  [lit "sasl", lit "message-tags", lit "server-time", lit "batch",
   lit "+draft/react", lit "+draft/reply"]

/-- The capability-name character set. -/
def isCapNameChar (c : Char) : Bool :=
  isAsciiAlphanumeric c || c == '-' || c == '/' || c == '.' || c == '_' || c == '+'

/-- `is_valid_capability_name` from `src/capabilities.rs`. -/
def is_valid_capability_name (name : Str) : Bool :=
  if name.isEmpty || name.length > 64 then false
  else if name.head? == some '-' then false
  else if name.any (· = '/') then
    match splitOnChar '/' name with
    | [p0, _] =>
        if p0.any (· = '.') &&
            !((lit ".com").isSuffixOf p0 || (lit ".org").isSuffixOf p0 ||
              (lit ".net").isSuffixOf p0 || (lit ".chat").isSuffixOf p0 ||
              (lit ".in").isSuffixOf p0) then false
        else name.all isCapNameChar
    | _ => false
  else name.all isCapNameChar

/-- The loop body of `parse_capabilities`; errors keep the insertions made
so far (the Rust method mutates in place before returning `Err`). -/
def parseCapsGo (h : CapabilityHandler) :
    List Str → (Except IronError Unit) × CapabilityHandler
  | [] => (.ok (), h)
  | spec :: rest =>
      if spec.isEmpty then parseCapsGo h rest
      else
        match breakAtChar '=' spec with
        | some (name, value) =>
            if is_valid_capability_name name then
              parseCapsGo
                {h with available_caps :=
                  alInsert name ⟨name, some value, false⟩ h.available_caps} rest
            else (.error (.SecurityViolation (lit "Invalid capability name: " ++ name)), h)
        | none =>
            if is_valid_capability_name spec then
              parseCapsGo
                {h with available_caps :=
                  alInsert spec ⟨spec, none, false⟩ h.available_caps} rest
            else (.error (.SecurityViolation (lit "Invalid capability name: " ++ spec)), h)

/-- `parse_capabilities` from `src/capabilities.rs`. -/
def parse_capabilities (h : CapabilityHandler) (caps_str : Str) :
    (Except IronError Unit) × CapabilityHandler :=
  parseCapsGo h (rustSplitWhitespace caps_str)

/-- `handle_cap_ls` from `src/capabilities.rs`. -/
def handle_cap_ls (h : CapabilityHandler) (params : List Str) :
    (Except IronError Bool) × CapabilityHandler :=
  match params with
  | _p0 :: p1 :: rest =>
      match rest with
      | [] =>
          match parse_capabilities h p1 with
          | (.ok _, h') => (.ok true, h')
          | (.error e, h') => (.error e, h')
      | p2 :: _ =>
          if p1 = lit "*" then
            match parse_capabilities h p2 with
            | (.ok _, h') => (.ok false, h')
            | (.error e, h') => (.error e, h')
          else
            match parse_capabilities h p1 with
            | (.ok _, h') => (.ok true, h')
            | (.error e, h') => (.error e, h')
  | _ => (.error (.Parse (lit "Invalid CAP LS response")), h)

/-- One name of a CAP ACK parameter: trim, skip empties, copy the available
spec into `enabled_caps` with `enabled = true`. -/
def ackOne (h : CapabilityHandler) (cap_name : Str) : CapabilityHandler :=
  if (rustTrim cap_name).isEmpty then h
  else
    match alLookup (rustTrim cap_name) h.available_caps with
    | some cap =>
        {h with enabled_caps :=
          alInsert (rustTrim cap_name) {cap with enabled := true} h.enabled_caps}
    | none => h

/-- `handle_cap_ack` from `src/capabilities.rs`. -/
def handle_cap_ack (h : CapabilityHandler) (caps : List Str) :
    (Except IronError Unit) × CapabilityHandler :=
  (.ok (), caps.foldl (fun acc p => (rustSplitWhitespace p).foldl ackOne acc) h)

/-- `handle_cap_nak` from `src/capabilities.rs`: a rejected essential
`sasl`/`sts` fails hard (before the current name is removed); every other
name is removed from `requested_caps`. -/
def handle_cap_nak (h : CapabilityHandler) :
    List Str → (Except IronError Unit) × CapabilityHandler
  | [] => (.ok (), h)
  | cap :: rest =>
      if get_essential_capabilities.contains cap ∧ (cap = lit "sasl" ∨ cap = lit "sts") then
        (.error (.SecurityViolation
          (lit "Essential security capability rejected: " ++ cap)), h)
      else
        handle_cap_nak
          {h with requested_caps := h.requested_caps.filter (fun c => c ≠ cap)} rest

/-- The name before the first `=` of a token (`split('=').next()`). -/
def capTokenName (tok : Str) : Str :=
  match breakAtChar '=' tok with
  | some (a, _) => a
  | none => tok

/-- `handle_cap_new` from `src/capabilities.rs`. -/
def handle_cap_new (h : CapabilityHandler) (caps_str : Str) :
    (Except IronError (List Str)) × CapabilityHandler :=
  if h.version < 302 then (.ok [], h)
  else
    match parse_capabilities h caps_str with
    | (.error e, h') => (.error e, h')
    | (.ok _, h') =>
        (.ok (((rustSplitWhitespace caps_str).map capTokenName).filter
          (fun n => get_essential_capabilities.contains n)), h')

/-- `handle_cap_del` from `src/capabilities.rs`. -/
def handle_cap_del (h : CapabilityHandler) (caps : List Str) :
    (Except IronError Unit) × CapabilityHandler :=
  (.ok (), caps.foldl
    (fun acc cap =>
      {acc with available_caps := alRemove cap acc.available_caps,
                enabled_caps := alRemove cap acc.enabled_caps}) h)

/-- The attribute loop of `handle_sts_policy`: comma-separated
`key[=value]` items, keys trimmed; parse failures abort. -/
def stsParseAttrs :
    (Option Nat × Option Nat × Bool) → List Str →
      Except IronError (Option Nat × Option Nat × Bool)
  | st, [] => .ok st
  | st, param :: rest =>
      match splitNChar 2 '=' param with
      | [] => stsParseAttrs st rest
      | key :: vals =>
          if rustTrim key = lit "duration" then
            match vals with
            | [] => stsParseAttrs st rest
            | v :: _ =>
                match rustParseNat U64_MAX v with
                | some n => stsParseAttrs (some n, st.2.1, st.2.2) rest
                | none => .error (.Parse (lit "Invalid STS duration"))
          else if rustTrim key = lit "port" then
            match vals with
            | [] => stsParseAttrs st rest
            | v :: _ =>
                match rustParseNat U16_MAX v with
                | some n => stsParseAttrs (st.1, some n, st.2.2) rest
                | none => .error (.Parse (lit "Invalid STS port"))
          else if rustTrim key = lit "preload" then
            stsParseAttrs (st.1, st.2.1, true) rest
          else stsParseAttrs st rest

/-- `handle_sts_policy` from `src/capabilities.rs`; `now` is the value of
`SystemTime::now()` during the call. -/
def handle_sts_policy (now : Nat) (h : CapabilityHandler) (hostname : Str)
    (cap_value : Str) : (Except IronError Unit) × CapabilityHandler :=
  match stsParseAttrs (none, none, false) (splitOnChar ',' cap_value) with
  | .error e => (.error e, h)
  | .ok (none, _, _) => (.error (.Parse (lit "STS policy missing duration")), h)
  | .ok (some duration, port, preload) =>
      if duration = 0 then
        (.ok (), {h with sts_policies := alRemove hostname h.sts_policies})
      else
        (.ok (),
         {h with sts_policies := (alInsert hostname
            (StsPolicy.mk duration port preload (now + duration)) h.sts_policies)})

/-- `should_upgrade_to_tls` from `src/capabilities.rs`; `now` is the value
of `SystemTime::now()` during the call. -/
def should_upgrade_to_tls (now : Nat) (h : CapabilityHandler) (hostname : Str) :
    Option Nat :=
  match alLookup hostname h.sts_policies with
  | some policy => if now < policy.expires_at then some (policy.port.getD 6697) else none
  | none => none

example :
    (handle_cap_ls CapabilityHandler.new
      [lit "*", lit "*", lit "sasl=PLAIN message-tags"]).1 = .ok false := by decide

example :
    ((handle_cap_ls CapabilityHandler.new
      [lit "*", lit "*", lit "sasl=PLAIN message-tags"]).2.available_caps.map
        Prod.fst) = [lit "sasl", lit "message-tags"] := by decide

example :
    (handle_cap_ls CapabilityHandler.new [lit "*", lit "sasl message-tags"]).1 =
      .ok true := by decide

/-! ## C5: CAP LS continuation handling -/

/-- C5: with fewer than two params `handle_cap_ls` is a parse error; with
`params.length > 2` and `params[1] = "*"` it is a continuation, feeding
`params[2]` to `parse_capabilities` and returning `false` on success;
otherwise it feeds `params[1]` and returns `true` on success. -/
theorem claim_C5_cap_ls :
    (∀ (h : CapabilityHandler) (params : List Str), params.length < 2 →
      handle_cap_ls h params = (.error (.Parse (lit "Invalid CAP LS response")), h)) ∧
    (∀ (h : CapabilityHandler) (p0 p1 p2 : Str) (rest : List Str), p1 = lit "*" →
      handle_cap_ls h (p0 :: p1 :: p2 :: rest) =
        ((parse_capabilities h p2).1.map (fun _ => false), (parse_capabilities h p2).2)) ∧
    (∀ (h : CapabilityHandler) (p0 p1 : Str) (rest : List Str),
      rest = [] ∨ p1 ≠ lit "*" →
      handle_cap_ls h (p0 :: p1 :: rest) =
        ((parse_capabilities h p1).1.map (fun _ => true), (parse_capabilities h p1).2)) := by
  refine ⟨?_, ?_, ?_⟩
  · intro h params hlen
    match params with
    | [] => rfl
    | [p] => rfl
    | p0 :: p1 :: rest => simp at hlen; omega
  · intro h p0 p1 p2 rest hp1
    show (if p1 = lit "*" then _ else _) = _
    rw [if_pos hp1]
    cases hp : parse_capabilities h p2 with
    | mk res h' => cases res <;> simp [hp, Except.map]
  · intro h p0 p1 rest hcase
    cases rest with
    | nil =>
        show (match parse_capabilities h p1 with
          | (Except.ok _, h') => ((Except.ok true : Except IronError Bool), h')
          | (Except.error e, h') => ((Except.error e : Except IronError Bool), h')) = _
        cases hp : parse_capabilities h p1 with
        | mk res h' => cases res <;> simp [hp, Except.map]
    | cons p2 rest2 =>
        have hne : p1 ≠ lit "*" := by
          rcases hcase with hc | hc
          · simp at hc
          · exact hc
        show (if p1 = lit "*" then _ else _) = _
        rw [if_neg hne]
        cases hp : parse_capabilities h p1 with
        | mk res h' => cases res <;> simp [hp, Except.map]

/-- C5, witness: the continuation clause applied to a concrete `CAP LS *`
message. -/
theorem claim_C5_witness :
    handle_cap_ls CapabilityHandler.new [lit "*", lit "*", lit "sasl batch"] =
      ((parse_capabilities CapabilityHandler.new (lit "sasl batch")).1.map (fun _ => false),
       (parse_capabilities CapabilityHandler.new (lit "sasl batch")).2) :=
  claim_C5_cap_ls.2.1 CapabilityHandler.new (lit "*") (lit "*") (lit "sasl batch") [] rfl

/-! ## C4: CAP NAK of essential capabilities -/

/-- The violating-name condition of `handle_cap_nak`. -/
def nakViolation (cap : Str) : Prop :=
  get_essential_capabilities.contains cap = true ∧
    (cap = lit "sasl" ∨ cap = lit "sts")

instance (cap : Str) : Decidable (nakViolation cap) := by
  unfold nakViolation
  infer_instance

lemma handle_cap_nak_cons_pos {h : CapabilityHandler} {cap : Str} {rest : List Str}
    (hc : nakViolation cap) :
    handle_cap_nak h (cap :: rest) =
      (.error (.SecurityViolation
        (lit "Essential security capability rejected: " ++ cap)), h) := by
  show (if get_essential_capabilities.contains cap ∧
        (cap = lit "sasl" ∨ cap = lit "sts") then
      ((.error (.SecurityViolation
        (lit "Essential security capability rejected: " ++ cap)) : Except IronError Unit), h)
    else handle_cap_nak
      {h with requested_caps := h.requested_caps.filter (fun c => c ≠ cap)} rest) = _
  rw [if_pos ⟨hc.1, hc.2⟩]

lemma handle_cap_nak_cons_neg {h : CapabilityHandler} {cap : Str} {rest : List Str}
    (hc : ¬ nakViolation cap) :
    handle_cap_nak h (cap :: rest) =
      handle_cap_nak
        {h with requested_caps := h.requested_caps.filter (fun c => c ≠ cap)} rest := by
  show (if get_essential_capabilities.contains cap ∧
        (cap = lit "sasl" ∨ cap = lit "sts") then
      ((.error (.SecurityViolation
        (lit "Essential security capability rejected: " ++ cap)) : Except IronError Unit), h)
    else handle_cap_nak
      {h with requested_caps := h.requested_caps.filter (fun c => c ≠ cap)} rest) = _
  rw [if_neg (fun hx => hc ⟨hx.1, hx.2⟩)]

lemma handle_cap_nak_ok :
    ∀ (caps : List Str) (h : CapabilityHandler),
    (∀ cap ∈ caps, ¬ nakViolation cap) →
    handle_cap_nak h caps =
      (.ok (), {h with requested_caps :=
        h.requested_caps.filter (fun c => !(caps.contains c))}) := by
  intro caps
  induction caps with
  | nil =>
      intro h _
      show ((Except.ok () : Except IronError Unit), h) = _
      congr 1
      cases h with
      | mk v a r e n s =>
          simp only
          congr 1
          rw [show (fun (c : Str) => !(([] : List Str).contains c)) = fun _ => true from
                rfl]
          rw [List.filter_true]
  | cons cap rest ih =>
      intro h hno
      rw [handle_cap_nak_cons_neg (hno cap (by simp)),
          ih _ (fun c hc => hno c (by simp [hc]))]
      congr 2
      rw [List.filter_filter]
      congr 1
      funext c
      by_cases h1 : c = cap <;> by_cases h2 : rest.contains c <;>
        simp [h1, h2, List.contains_cons]

lemma handle_cap_nak_error_iff :
    ∀ (caps : List Str) (h : CapabilityHandler),
    (∃ e, (handle_cap_nak h caps).1 = .error e) ↔
      ∃ cap ∈ caps, nakViolation cap := by
  intro caps
  induction caps with
  | nil =>
      intro h
      constructor
      · rintro ⟨e, he⟩
        simp [handle_cap_nak] at he
      · rintro ⟨cap, hc, _⟩
        simp at hc
  | cons cap rest ih =>
      intro h
      by_cases hc : nakViolation cap
      · constructor
        · intro _
          exact ⟨cap, by simp, hc⟩
        · intro _
          refine ⟨IronError.SecurityViolation
            (lit "Essential security capability rejected: " ++ cap), ?_⟩
          rw [handle_cap_nak_cons_pos hc]
      · rw [handle_cap_nak_cons_neg hc]
        constructor
        · intro he
          obtain ⟨c', hc', hcond⟩ := (ih _).mp he
          exact ⟨c', by simp [hc'], hcond⟩
        · rintro ⟨c', hc', hcond⟩
          rcases List.mem_cons.mp hc' with rfl | hc'
          · exact absurd hcond hc
          · exact (ih _).mpr ⟨c', hc', hcond⟩

lemma handle_cap_nak_error_shape :
    ∀ (caps : List Str) (h : CapabilityHandler) (e : IronError),
    (handle_cap_nak h caps).1 = .error e → ∃ msg, e = .SecurityViolation msg := by
  intro caps
  induction caps with
  | nil =>
      intro h e he
      simp [handle_cap_nak] at he
  | cons cap rest ih =>
      intro h e he
      by_cases hc : nakViolation cap
      · rw [handle_cap_nak_cons_pos hc] at he
        simp at he
        exact ⟨_, he.symm⟩
      · rw [handle_cap_nak_cons_neg hc] at he
        exact ih _ e he

/-- C4: `handle_cap_nak` fails (with a `SecurityViolation`) exactly when
some rejected name is in the essential list and equal to `"sasl"` or
`"sts"`; otherwise every rejected name is removed from `requested_caps`
and the call succeeds.  In particular NAK of `"sasl"` fails and NAK of
`"batch"` succeeds with `"batch"` removed. -/
theorem claim_C4_cap_nak :
    (∀ (h : CapabilityHandler) (caps : List Str),
      (∃ e, (handle_cap_nak h caps).1 = .error e) ↔
        ∃ cap ∈ caps, get_essential_capabilities.contains cap = true ∧
          (cap = lit "sasl" ∨ cap = lit "sts")) ∧
    (∀ (h : CapabilityHandler) (caps : List Str) (e : IronError),
      (handle_cap_nak h caps).1 = .error e → ∃ msg, e = .SecurityViolation msg) ∧
    (∀ (h : CapabilityHandler) (caps : List Str),
      (∀ cap ∈ caps, ¬(get_essential_capabilities.contains cap = true ∧
          (cap = lit "sasl" ∨ cap = lit "sts"))) →
      handle_cap_nak h caps =
        (.ok (), {h with requested_caps :=
          h.requested_caps.filter (fun c => !(caps.contains c))})) ∧
    (∀ h, (handle_cap_nak h [lit "sasl"]).1 =
      .error (.SecurityViolation (lit "Essential security capability rejected: sasl"))) ∧
    (∀ h, (handle_cap_nak h [lit "batch"]).1 = .ok () ∧
      ¬ lit "batch" ∈ (handle_cap_nak h [lit "batch"]).2.requested_caps) := by
  refine ⟨fun h caps => handle_cap_nak_error_iff caps h,
          fun h caps => handle_cap_nak_error_shape caps h,
          fun h caps => handle_cap_nak_ok caps h, ?_, ?_⟩
  · intro h
    rw [handle_cap_nak_cons_pos
      (show nakViolation (lit "sasl") from ⟨by decide, Or.inl rfl⟩)]
    rfl
  · intro h
    rw [handle_cap_nak_ok [lit "batch"] h (by decide)]
    refine ⟨rfl, ?_⟩
    intro hmem
    simp only [List.mem_filter] at hmem
    have := hmem.2
    simp [List.contains_cons] at this

/-- C4, witness: the no-violation clause applied to a concrete handler and
rejection list. -/
theorem claim_C4_witness :
    handle_cap_nak ⟨302, [], [lit "batch", lit "server-time"], [], false, []⟩
        [lit "batch"] =
      (.ok (), ⟨302, [], [lit "server-time"], [], false, []⟩) := by
  rw [claim_C4_cap_nak.2.2.1 ⟨302, [], [lit "batch", lit "server-time"], [], false, []⟩
    [lit "batch"] (by decide)]
  decide

/-! ## C6: STS policy storage, revocation and expiry -/

lemma alLookup_alInsert_self {α : Type} (k : Str) (v : α) :
    ∀ (l : List (Str × α)), alLookup k (alInsert k v l) = some v := by
  intro l
  induction l with
  | nil => simp [alInsert, alLookup]
  | cons kv rest ih =>
      obtain ⟨k', v'⟩ := kv
      by_cases hk : k' = k
      · simp [alInsert, alLookup, hk]
      · simp [alInsert, alLookup, hk, ih]

lemma alLookup_not_mem {α : Type} {k : Str} :
    ∀ {l : List (Str × α)}, k ∉ l.map Prod.fst → alLookup k l = none := by
  intro l
  induction l with
  | nil => intro _; rfl
  | cons kv rest ih =>
      obtain ⟨k', v'⟩ := kv
      intro hk
      simp only [List.map_cons, List.mem_cons] at hk
      have h1 : k' ≠ k := fun he => hk (Or.inl he.symm)
      simp [alLookup, h1, ih fun hm => hk (Or.inr hm)]

lemma alLookup_alRemove_self {α : Type} {k : Str} :
    ∀ {l : List (Str × α)}, (l.map Prod.fst).Nodup →
    alLookup k (alRemove k l) = none := by
  intro l
  induction l with
  | nil => intro _; rfl
  | cons kv rest ih =>
      obtain ⟨k', v'⟩ := kv
      intro hnd
      simp only [List.map_cons, List.nodup_cons] at hnd
      by_cases hk : k' = k
      · subst hk
        rw [show alRemove k' ((k', v') :: rest) = rest from by simp [alRemove]]
        exact alLookup_not_mem hnd.1
      · rw [show alRemove k ((k', v') :: rest) = (k', v') :: alRemove k rest from by
            simp [alRemove, hk]]
        simp [alLookup, hk, ih hnd.2]

/-- C6: a successful `handle_sts_policy` parsed a duration; duration 0
deletes the stored policy for the hostname (so `should_upgrade_to_tls`
yields `None`); a positive duration stores a policy expiring at
`now + duration`, and before that instant `should_upgrade_to_tls` yields
the policy port, defaulting to 6697.  Without an unexpired policy the
upgrade check yields `None`. -/
theorem claim_C6_sts :
    (∀ (now : Nat) (h : CapabilityHandler) (host v : Str) (h' : CapabilityHandler),
      (h.sts_policies.map Prod.fst).Nodup →
      handle_sts_policy now h host v = (.ok (), h') →
      ∃ dur port pre,
        stsParseAttrs (none, none, false) (splitOnChar ',' v) = .ok (some dur, port, pre) ∧
        (dur = 0 → alLookup host h'.sts_policies = none ∧
          ∀ t, should_upgrade_to_tls t h' host = none) ∧
        (0 < dur → alLookup host h'.sts_policies = some ⟨dur, port, pre, now + dur⟩ ∧
          ∀ t, t < now + dur →
            should_upgrade_to_tls t h' host = some (port.getD 6697))) ∧
    (∀ (t : Nat) (h : CapabilityHandler) (host : Str),
      (∀ pol ∈ (alLookup host h.sts_policies).toList, pol.expires_at ≤ t) →
      should_upgrade_to_tls t h host = none) := by
  constructor
  · intro now h host v h' hnodup heq
    unfold handle_sts_policy at heq
    split at heq
    · simp at heq
    · simp at heq
    · rename_i duration port pre hparse
      split at heq
      · rename_i hdur0
        simp only [Prod.mk.injEq, true_and] at heq
        refine ⟨duration, port, pre, hparse, ?_, ?_⟩
        · intro _
          have hlook : alLookup host h'.sts_policies = none := by
            rw [← heq]
            exact alLookup_alRemove_self hnodup
          refine ⟨hlook, fun t => ?_⟩
          unfold should_upgrade_to_tls
          rw [hlook]
        · intro hpos
          omega
      · rename_i hdur
        simp only [Prod.mk.injEq, true_and] at heq
        refine ⟨duration, port, pre, hparse, fun h0 => absurd h0 hdur, fun _ => ?_⟩
        have hlook : alLookup host h'.sts_policies =
            some ⟨duration, port, pre, now + duration⟩ := by
          rw [← heq]
          exact alLookup_alInsert_self host _ h.sts_policies
        refine ⟨hlook, fun t ht => ?_⟩
        unfold should_upgrade_to_tls
        rw [hlook]
        simp only
        rw [if_pos ht]
  · intro t h host hexp
    unfold should_upgrade_to_tls
    split
    · rename_i pol hpol
      rw [if_neg (by have := hexp pol (by simp [hpol]); omega)]
    · rfl

/-- C6, witness: the success clause applied to a concrete policy
`duration=300,port=7000` received at time 1000. -/
theorem claim_C6_witness :
    ∃ dur port pre,
      stsParseAttrs (none, none, false)
          (splitOnChar ',' (lit "duration=300,port=7000")) = .ok (some dur, port, pre) ∧
      (dur = 0 →
        alLookup (lit "irc.example.com")
          (⟨302, [], [], [], false,
            [(lit "irc.example.com", ⟨300, some 7000, false, 1300⟩)]⟩ :
              CapabilityHandler).sts_policies = none ∧
        ∀ t, should_upgrade_to_tls t
          ⟨302, [], [], [], false,
            [(lit "irc.example.com", ⟨300, some 7000, false, 1300⟩)]⟩
          (lit "irc.example.com") = none) ∧
      (0 < dur →
        alLookup (lit "irc.example.com")
          (⟨302, [], [], [], false,
            [(lit "irc.example.com", ⟨300, some 7000, false, 1300⟩)]⟩ :
              CapabilityHandler).sts_policies = some ⟨dur, port, pre, 1000 + dur⟩ ∧
        ∀ t, t < 1000 + dur →
          should_upgrade_to_tls t
            ⟨302, [], [], [], false,
              [(lit "irc.example.com", ⟨300, some 7000, false, 1300⟩)]⟩
            (lit "irc.example.com") = some (port.getD 6697)) :=
  claim_C6_sts.1 1000 CapabilityHandler.new (lit "irc.example.com")
    (lit "duration=300,port=7000")
    ⟨302, [], [], [], false, [(lit "irc.example.com", ⟨300, some 7000, false, 1300⟩)]⟩
    (by decide) (by decide)

/-! ## C8: enabled capabilities stay a subset of available -/

/-- The C8 invariant (with the key-uniqueness every `HashMap` guarantees):
every enabled capability name is also an available one. -/
def handlerWF (h : CapabilityHandler) : Prop :=
  (∀ k v, alLookup k h.enabled_caps = some v →
    ∃ w, alLookup k h.available_caps = some w) ∧
  (h.enabled_caps.map Prod.fst).Nodup

lemma alLookup_alInsert_other {α : Type} {k j : Str} (hne : k ≠ j) (v : α) :
    ∀ l : List (Str × α), alLookup k (alInsert j v l) = alLookup k l := by
  intro l
  induction l with
  | nil => simp [alInsert, alLookup, hne.symm]
  | cons kv rest ih =>
      obtain ⟨a, b⟩ := kv
      by_cases h1 : a = j
      · subst h1
        simp [alInsert, alLookup, hne.symm, hne]
      · by_cases h2 : a = k
        · simp [alInsert, alLookup, h1, h2, hne]
        · simp [alInsert, alLookup, h1, h2, ih]

lemma mem_alInsert_keys {α : Type} {k : Str} {v : α} :
    ∀ {l : List (Str × α)} {x : Str}, x ∈ (alInsert k v l).map Prod.fst →
      x = k ∨ x ∈ l.map Prod.fst := by
  intro l
  induction l with
  | nil => intro x hx; simp [alInsert] at hx; exact Or.inl hx
  | cons kv rest ih =>
      obtain ⟨a, b⟩ := kv
      intro x hx
      by_cases h1 : a = k
      · rw [show alInsert k v ((a, b) :: rest) = (k, v) :: rest from by
            simp [alInsert, h1]] at hx
        simp only [List.map_cons, List.mem_cons] at hx
        rcases hx with rfl | hx
        · exact Or.inl rfl
        · exact Or.inr (by simp [hx])
      · rw [show alInsert k v ((a, b) :: rest) = (a, b) :: alInsert k v rest from by
            simp [alInsert, h1]] at hx
        simp only [List.map_cons, List.mem_cons] at hx
        rcases hx with rfl | hx
        · refine Or.inr ?_
          simp only [List.map_cons]
          exact List.mem_cons_self _ _
        · rcases ih hx with h | h
          · exact Or.inl h
          · exact Or.inr (by simp [h])

lemma alInsert_keys_nodup {α : Type} {k : Str} {v : α} :
    ∀ {l : List (Str × α)}, (l.map Prod.fst).Nodup →
      ((alInsert k v l).map Prod.fst).Nodup := by
  intro l
  induction l with
  | nil => intro _; simp [alInsert]
  | cons kv rest ih =>
      obtain ⟨a, b⟩ := kv
      intro hnd
      simp only [List.map_cons, List.nodup_cons] at hnd
      by_cases h1 : a = k
      · rw [show alInsert k v ((a, b) :: rest) = (k, v) :: rest from by
            simp [alInsert, h1]]
        simp only [List.map_cons, List.nodup_cons]
        exact ⟨h1 ▸ hnd.1, hnd.2⟩
      · rw [show alInsert k v ((a, b) :: rest) = (a, b) :: alInsert k v rest from by
            simp [alInsert, h1]]
        simp only [List.map_cons, List.nodup_cons]
        refine ⟨fun hmem => ?_, ih hnd.2⟩
        rcases mem_alInsert_keys hmem with h | h
        · exact h1 h
        · exact hnd.1 h

lemma alLookup_alRemove_of_ne {α : Type} {k c : Str} (hne : k ≠ c) :
    ∀ l : List (Str × α), alLookup k (alRemove c l) = alLookup k l := by
  intro l
  induction l with
  | nil => rfl
  | cons kv rest ih =>
      obtain ⟨a, b⟩ := kv
      by_cases h1 : a = c
      · subst h1
        simp [alRemove, alLookup, hne.symm, hne]
      · by_cases h2 : a = k
        · simp [alRemove, alLookup, h1, h2, hne]
        · simp [alRemove, alLookup, h1, h2, ih]

lemma alRemove_keys_sublist {α : Type} {c : Str} :
    ∀ l : List (Str × α), ((alRemove c l).map Prod.fst).Sublist (l.map Prod.fst) := by
  intro l
  induction l with
  | nil => simp [alRemove]
  | cons kv rest ih =>
      obtain ⟨a, b⟩ := kv
      by_cases h1 : a = c
      · simp only [alRemove, if_pos h1, List.map_cons]
        exact List.sublist_cons_self _ _
      · simp only [alRemove, if_neg h1, List.map_cons]
        exact ih.cons₂ a

lemma foldl_preserve {α : Type} {P : CapabilityHandler → Prop}
    {f : CapabilityHandler → α → CapabilityHandler}
    (hf : ∀ h x, P h → P (f h x)) :
    ∀ (l : List α) (h : CapabilityHandler), P h → P (l.foldl f h) := by
  intro l
  induction l with
  | nil => intro h hp; exact hp
  | cons x xs ih => intro h hp; exact ih (f h x) (hf h x hp)

lemma parseCapsGo_enabled_eq :
    ∀ (toks : List Str) (h : CapabilityHandler),
    ((parseCapsGo h toks).2).enabled_caps = h.enabled_caps := by
  intro toks
  induction toks with
  | nil => intro h; rfl
  | cons spec rest ih =>
      intro h
      unfold parseCapsGo
      split
      · exact ih h
      · split
        · split
          · rw [ih]
          · rfl
        · split
          · rw [ih]
          · rfl

lemma parseCapsGo_avail_mono :
    ∀ (toks : List Str) (h : CapabilityHandler) (k : Str) (w : CapabilitySpec),
    alLookup k h.available_caps = some w →
    ∃ w', alLookup k ((parseCapsGo h toks).2).available_caps = some w' := by
  intro toks
  induction toks with
  | nil => intro h k w hw; exact ⟨w, hw⟩
  | cons spec rest ih =>
      intro h k w hw
      unfold parseCapsGo
      split
      · exact ih h k w hw
      · split
        · rename_i name value hbr
          split
          · by_cases hk : k = name
            · subst hk
              exact ih _ k _ (alLookup_alInsert_self k _ h.available_caps)
            · exact ih _ k w (by rw [alLookup_alInsert_other hk]; exact hw)
          · exact ⟨w, hw⟩
        · split
          · by_cases hk : k = spec
            · subst hk
              exact ih _ k _ (alLookup_alInsert_self k _ h.available_caps)
            · exact ih _ k w (by rw [alLookup_alInsert_other hk]; exact hw)
          · exact ⟨w, hw⟩

lemma handlerWF_parse (h : CapabilityHandler) (s : Str) (hwf : handlerWF h) :
    handlerWF (parse_capabilities h s).2 := by
  unfold parse_capabilities
  constructor
  · intro k v hv
    rw [parseCapsGo_enabled_eq] at hv
    obtain ⟨w, hw⟩ := hwf.1 k v hv
    exact parseCapsGo_avail_mono _ h k w hw
  · rw [parseCapsGo_enabled_eq]
    exact hwf.2

lemma handle_cap_ls_snd (h : CapabilityHandler) (params : List Str) :
    (handle_cap_ls h params).2 = h ∨
    ∃ s, (handle_cap_ls h params).2 = (parse_capabilities h s).2 := by
  match params with
  | [] => exact Or.inl rfl
  | [_p0] => exact Or.inl rfl
  | _p0 :: p1 :: [] =>
      refine Or.inr ⟨p1, ?_⟩
      show (match parse_capabilities h p1 with
        | (.ok _, h9) => ((.ok true : Except IronError Bool), h9)
        | (.error e, h9) => (.error e, h9)).2 = (parse_capabilities h p1).2
      cases hp : parse_capabilities h p1 with
      | mk r h9 => cases r <;> rfl
  | _p0 :: p1 :: p2 :: rest =>
      by_cases hq : p1 = lit "*"
      · refine Or.inr ⟨p2, ?_⟩
        show (if p1 = lit "*" then
            (match parse_capabilities h p2 with
              | (.ok _, h9) => ((.ok false : Except IronError Bool), h9)
              | (.error e, h9) => (.error e, h9))
          else
            (match parse_capabilities h p1 with
              | (.ok _, h9) => ((.ok true : Except IronError Bool), h9)
              | (.error e, h9) => (.error e, h9))).2 = (parse_capabilities h p2).2
        rw [if_pos hq]
        cases hp : parse_capabilities h p2 with
        | mk r h9 => cases r <;> rfl
      · refine Or.inr ⟨p1, ?_⟩
        show (if p1 = lit "*" then
            (match parse_capabilities h p2 with
              | (.ok _, h9) => ((.ok false : Except IronError Bool), h9)
              | (.error e, h9) => (.error e, h9))
          else
            (match parse_capabilities h p1 with
              | (.ok _, h9) => ((.ok true : Except IronError Bool), h9)
              | (.error e, h9) => (.error e, h9))).2 = (parse_capabilities h p1).2
        rw [if_neg hq]
        cases hp : parse_capabilities h p1 with
        | mk r h9 => cases r <;> rfl

lemma handle_cap_new_snd (h : CapabilityHandler) (s : Str) :
    (handle_cap_new h s).2 = h ∨
    (handle_cap_new h s).2 = (parse_capabilities h s).2 := by
  unfold handle_cap_new
  by_cases hv : h.version < 302
  · rw [if_pos hv]
    exact Or.inl rfl
  · rw [if_neg hv]
    refine Or.inr ?_
    cases hp : parse_capabilities h s with
    | mk r h9 => cases r <;> rfl

lemma handlerWF_ackOne (h : CapabilityHandler) (x : Str) (hwf : handlerWF h) :
    handlerWF (ackOne h x) := by
  unfold ackOne
  split
  · exact hwf
  · split
    · rename_i cap hcap
      constructor
      · intro k v hv
        by_cases hk : k = rustTrim x
        · subst hk
          exact ⟨cap, hcap⟩
        · rw [alLookup_alInsert_other hk] at hv
          exact hwf.1 k v hv
      · exact alInsert_keys_nodup hwf.2
    · exact hwf

lemma handle_cap_nak_fields :
    ∀ (caps : List Str) (h : CapabilityHandler),
    ((handle_cap_nak h caps).2).enabled_caps = h.enabled_caps ∧
    ((handle_cap_nak h caps).2).available_caps = h.available_caps := by
  intro caps
  induction caps with
  | nil => intro h; exact ⟨rfl, rfl⟩
  | cons cap rest ih =>
      intro h
      by_cases hc : nakViolation cap
      · rw [handle_cap_nak_cons_pos hc]
        exact ⟨rfl, rfl⟩
      · rw [handle_cap_nak_cons_neg hc]
        exact ih _

lemma handle_sts_fields (now : Nat) (h : CapabilityHandler) (host v : Str) :
    ((handle_sts_policy now h host v).2).enabled_caps = h.enabled_caps ∧
    ((handle_sts_policy now h host v).2).available_caps = h.available_caps := by
  unfold handle_sts_policy
  split
  · exact ⟨rfl, rfl⟩
  · exact ⟨rfl, rfl⟩
  · split
    · exact ⟨rfl, rfl⟩
    · exact ⟨rfl, rfl⟩

lemma handlerWF_of_fields {h h' : CapabilityHandler}
    (he : h'.enabled_caps = h.enabled_caps)
    (ha : h'.available_caps = h.available_caps)
    (hwf : handlerWF h) : handlerWF h' := by
  constructor
  · intro k v hv
    rw [he] at hv
    obtain ⟨w, hw⟩ := hwf.1 k v hv
    exact ⟨w, by rw [ha]; exact hw⟩
  · rw [he]
    exact hwf.2

/-- C8: the key set of `enabled_caps` is a subset of that of
`available_caps` at construction, and every handler method preserves this
invariant, on the success and on the error path alike. -/
theorem claim_C8_invariant :
    handlerWF CapabilityHandler.new ∧
    (∀ (h : CapabilityHandler) (params : List Str), handlerWF h →
      handlerWF (handle_cap_ls h params).2) ∧
    (∀ (h : CapabilityHandler) (caps : List Str), handlerWF h →
      handlerWF (handle_cap_ack h caps).2) ∧
    (∀ (h : CapabilityHandler) (caps : List Str), handlerWF h →
      handlerWF (handle_cap_nak h caps).2) ∧
    (∀ (h : CapabilityHandler) (s : Str), handlerWF h →
      handlerWF (handle_cap_new h s).2) ∧
    (∀ (h : CapabilityHandler) (caps : List Str), handlerWF h →
      handlerWF (handle_cap_del h caps).2) ∧
    (∀ (now : Nat) (h : CapabilityHandler) (host v : Str), handlerWF h →
      handlerWF (handle_sts_policy now h host v).2) := by
  refine ⟨⟨fun k v hv => by simp [alLookup, CapabilityHandler.new] at hv,
          by simp [CapabilityHandler.new]⟩, ?_, ?_, ?_, ?_, ?_, ?_⟩
  · intro h params hwf
    rcases handle_cap_ls_snd h params with he | ⟨s, he⟩
    · rw [he]
      exact hwf
    · rw [he]
      exact handlerWF_parse h s hwf
  · intro h caps hwf
    exact foldl_preserve
      (fun acc p hp => foldl_preserve (fun a x hx => handlerWF_ackOne a x hx)
        (rustSplitWhitespace p) acc hp) caps h hwf
  · intro h caps hwf
    obtain ⟨he, ha⟩ := handle_cap_nak_fields caps h
    exact handlerWF_of_fields he ha hwf
  · intro h s hwf
    rcases handle_cap_new_snd h s with he | he
    · rw [he]
      exact hwf
    · rw [he]
      exact handlerWF_parse h s hwf
  · intro h caps hwf
    refine foldl_preserve (fun acc cap hacc => ?_) caps h hwf
    constructor
    · intro k v hv
      by_cases hk : k = cap
      · subst hk
        rw [alLookup_alRemove_self hacc.2] at hv
        cases hv
      · rw [alLookup_alRemove_of_ne hk] at hv
        obtain ⟨w, hw⟩ := hacc.1 k v hv
        exact ⟨w, by rw [alLookup_alRemove_of_ne hk]; exact hw⟩
    · exact hacc.2.sublist (alRemove_keys_sublist _)
  · intro now h host v hwf
    obtain ⟨he, ha⟩ := handle_sts_fields now h host v
    exact handlerWF_of_fields he ha hwf

/-- C8, witness: the ACK clause applied to a concrete handler with one
available capability. -/
theorem claim_C8_witness :
    handlerWF (handle_cap_ack
      ⟨302, [(lit "sasl", ⟨lit "sasl", none, false⟩)], [], [], false, []⟩
      [lit "sasl"]).2 :=
  claim_C8_invariant.2.2.1
    ⟨302, [(lit "sasl", ⟨lit "sasl", none, false⟩)], [], [], false, []⟩
    [lit "sasl"]
    ⟨fun k v hv => by simp [alLookup] at hv, by simp⟩

/-! ## SASL (`src/sasl.rs`)

Crypto primitives (base64, SHA-256, HMAC, PBKDF2) and UTF-8 decoding come
from third-party crates; they enter the model as an abstract `CryptoPrims`
record of functions, so every theorem below holds for all implementations.
`Char.toUpper` is ASCII uppercasing, which agrees with Rust
`str::to_uppercase` on the ASCII mechanism names involved. -/

/-- `SaslMechanism` from `src/sasl.rs`. -/
inductive SaslMechanism where
  | Plain
  | External
  | ScramSha256
deriving DecidableEq, Repr

/-- `SaslMechanism::from_str`. -/
def SaslMechanism.fromStr (s : Str) : Option SaslMechanism :=
  if rustToUppercase s = lit "PLAIN" then some .Plain
  else if rustToUppercase s = lit "EXTERNAL" then some .External
  else if rustToUppercase s = lit "SCRAM-SHA-256" then some .ScramSha256
  else none

/-- `SaslMechanism::is_secure`. -/
def SaslMechanism.is_secure : SaslMechanism → Bool
  | .Plain => false
  | .External => true
  | .ScramSha256 => true

/-- `SaslMechanism::security_strength`. -/
def SaslMechanism.security_strength : SaslMechanism → Nat
  | .Plain => 1
  | .External => 3
  | .ScramSha256 => 2

/-- `SaslState` from `src/sasl.rs`. -/
inductive SaslState where
  | Initial
  | Authenticating
  | Success
  | Failed
deriving DecidableEq, Repr

/-- `SaslAuth` from `src/sasl.rs`; salts and other byte strings are
`List Nat`. -/
structure SaslAuth where
  mechanism : SaslMechanism
  username : Str
  password : Option Str
  client_nonce : Option Str
  server_nonce : Option Str
  salt : Option (List Nat)
  iterations : Option Nat
  state : SaslState
deriving DecidableEq, Repr

/-- The third-party primitives used by `sasl.rs`: base64 encode/decode,
UTF-8 decoding, SHA-256, HMAC-SHA-256 and PBKDF2-HMAC-SHA-256 (the two
fallible ones return `none` where the crate returns `Err`). -/
structure CryptoPrims where
  b64encode : List Nat → Str
  b64decode : Str → Option (List Nat)
  utf8Decode : List Nat → Option Str
  sha256 : List Nat → List Nat
  hmacSha256 : List Nat → List Nat → Option (List Nat)
  pbkdf2Sha256 : List Nat → List Nat → Nat → Option (List Nat)

/-- `str::as_bytes` for the ASCII strings that occur here. -/
def strBytes (s : Str) : List Nat := s.map Char.toNat

/-- `str::strip_prefix`. -/
def stripPrefixStr : Str → Str → Option Str
  | [], s => some s
  | _, [] => none
  | p :: ps, c :: cs => if c = p then stripPrefixStr ps cs else none

/-- Decimal rendering of a number (`format!` of a `u32`), fuel-structured. -/
def natDigitsAux : Nat → Nat → Str
  | 0, _ => []
  | fuel + 1, n =>
      if n < 10 then [Char.ofNat (48 + n)]
      else natDigitsAux fuel (n / 10) ++ [Char.ofNat (48 + n % 10)]

def natToStr (n : Nat) : Str := natDigitsAux (n + 1) n

/-- The `auth_message` `format!` of `process_scram_challenge`. -/
def scramAuthMessage (username cn sn saltB64 : Str) (iterations : Nat) : Str :=
  lit "n=" ++ username ++ lit ",r=" ++ cn ++ lit ",r=" ++ sn ++ lit ",s=" ++
    saltB64 ++ lit ",i=" ++ natToStr iterations ++ lit ",c=biws,r=" ++ sn

/-- The attribute loop of `process_scram_challenge` over
`challenge.split(',')`: `r=` values must extend the client nonce (else an
immediate error), `s=` values are base64-decoded, `i=` values are parsed
as `u32`; the last occurrence of each attribute wins, other parts are
ignored. -/
def scramLoop (prims : CryptoPrims) (cn : Str) :
    Option Str → Option (List Nat) → Option Nat → List Str →
      Except IronError (Option Str × Option (List Nat) × Option Nat)
  | sn, sa, it, [] => .ok (sn, sa, it)
  | sn, sa, it, part :: rest =>
      match stripPrefixStr (lit "r=") part with
      | some value =>
          if cn.isPrefixOf value then scramLoop prims cn (some value) sa it rest
          else .error (.Sasl (lit "Server nonce doesn't start with client nonce"))
      | none =>
          match stripPrefixStr (lit "s=") part with
          | some value =>
              match prims.b64decode value with
              | some salt => scramLoop prims cn sn (some salt) it rest
              | none => .error (.Sasl (lit "Invalid salt encoding"))
          | none =>
              match stripPrefixStr (lit "i=") part with
              | some value =>
                  match rustParseNat U32_MAX value with
                  | some n => scramLoop prims cn sn sa (some n) rest
                  | none => .error (.Sasl (lit "Invalid iteration count"))
              | none => scramLoop prims cn sn sa it rest

/-- `SaslAuth::process_scram_challenge`.  The `self.server_nonce` /
`self.salt` / `self.iterations` assignments happen before the key
derivation, so a PBKDF2/HMAC failure still returns the updated struct. -/
def process_scram_challenge (prims : CryptoPrims) (auth : SaslAuth)
    (challenge : Str) : (Except IronError Str) × SaslAuth :=
  match auth.password with
  | none => (.error (.Sasl (lit "Password required for SCRAM")), auth)
  | some password =>
  match auth.client_nonce with
  | none => (.error (.Sasl (lit "Client nonce not set")), auth)
  | some client_nonce =>
  match scramLoop prims client_nonce none none none (splitOnChar ',' challenge) with
  | .error e => (.error e, auth)
  | .ok (osn, osa, oit) =>
  match osn with
  | none => (.error (.Sasl (lit "Missing server nonce")), auth)
  | some server_nonce =>
  match osa with
  | none => (.error (.Sasl (lit "Missing salt")), auth)
  | some salt =>
  match oit with
  | none => (.error (.Sasl (lit "Missing iteration count")), auth)
  | some iterations =>
  match prims.pbkdf2Sha256 (strBytes password) salt iterations with
  | none => (.error (.Sasl (lit "PBKDF2 failed")),
      {auth with server_nonce := some server_nonce, salt := some salt,
                 iterations := some iterations})
  | some salted_password =>
  match prims.hmacSha256 salted_password (strBytes (lit "Client Key")) with
  | none => (.error (.Sasl (lit "HMAC key error")),
      {auth with server_nonce := some server_nonce, salt := some salt,
                 iterations := some iterations})
  | some client_key =>
  match prims.hmacSha256 (prims.sha256 client_key)
      (strBytes (scramAuthMessage auth.username client_nonce server_nonce
        (prims.b64encode salt) iterations)) with
  | none => (.error (.Sasl (lit "HMAC key error")),
      {auth with server_nonce := some server_nonce, salt := some salt,
                 iterations := some iterations})
  | some client_signature =>
  (.ok (prims.b64encode (strBytes (lit "c=biws,r=" ++ server_nonce ++ lit ",p=" ++
      prims.b64encode (List.zipWith Nat.xor client_key client_signature)))),
   {auth with server_nonce := some server_nonce, salt := some salt,
              iterations := some iterations})

/-- `SaslAuth::process_challenge`: base64-decode, UTF-8 decode, then
dispatch on the mechanism (PLAIN and EXTERNAL reject challenges). -/
def process_challenge (prims : CryptoPrims) (auth : SaslAuth)
    (challenge : Str) : (Except IronError Str) × SaslAuth :=
  match prims.b64decode challenge with
  | none => (.error (.Sasl (lit "Invalid base64 in challenge")), auth)
  | some challenge_data =>
  match prims.utf8Decode challenge_data with
  | none => (.error (.Sasl (lit "Invalid UTF-8 in challenge")), auth)
  | some challenge_str =>
  match auth.mechanism with
  | .Plain => (.error (.Sasl (lit "PLAIN doesn't use challenges")), auth)
  | .External => (.error (.Sasl (lit "EXTERNAL doesn't use challenges")), auth)
  | .ScramSha256 => process_scram_challenge prims auth challenge_str

/-- `SaslAuth::mark_success`. -/
def mark_success (auth : SaslAuth) : SaslAuth := {auth with state := .Success}

/-- `SaslAuth::mark_failed`. -/
def mark_failed (auth : SaslAuth) : SaslAuth := {auth with state := .Failed}

/-- Insertion step of the stable descending `sort_by` on
`security_strength`.  (Stability is unobservable here: the strength map
`Plain 1 / ScramSha256 2 / External 3` is injective, so equal-strength
elements are equal.) -/
def insertByStrengthDesc (m : SaslMechanism) :
    List SaslMechanism → List SaslMechanism
  | [] => [m]
  | x :: xs =>
      if x.security_strength < m.security_strength then m :: x :: xs
      else x :: insertByStrengthDesc m xs

def sortByStrengthDesc : List SaslMechanism → List SaslMechanism
  | [] => []
  | x :: xs => insertByStrengthDesc x (sortByStrengthDesc xs)

/-- `choose_best_mechanism` from `src/sasl.rs`: parse, sort by descending
strength, drop insecure mechanisms unless TLS is on, take the first. -/
def choose_best_mechanism (available : List Str) (tls_enabled : Bool) :
    Option SaslMechanism :=
  (if tls_enabled then
    sortByStrengthDesc (available.filterMap SaslMechanism.fromStr)
  else
    (sortByStrengthDesc (available.filterMap SaslMechanism.fromStr)).filter
      (fun m => m.is_secure)).head?

/-- The mechanisms that remain eligible: the recognized names, minus the
insecure ones when TLS is off. -/
def saslRemaining (available : List Str) (tls_enabled : Bool) :
    List SaslMechanism :=
  if tls_enabled then available.filterMap SaslMechanism.fromStr
  else (available.filterMap SaslMechanism.fromStr).filter (fun m => m.is_secure)

def sortedDesc (l : List SaslMechanism) : Prop :=
  l.Pairwise (fun a b => b.security_strength ≤ a.security_strength)

lemma mem_insertByStrengthDesc {x m : SaslMechanism} :
    ∀ {l : List SaslMechanism}, x ∈ insertByStrengthDesc m l ↔ x = m ∨ x ∈ l := by
  intro l
  induction l with
  | nil => simp [insertByStrengthDesc]
  | cons a t ih =>
      by_cases h1 : a.security_strength < m.security_strength
      · simp [insertByStrengthDesc, h1]
      · simp only [insertByStrengthDesc, if_neg h1, List.mem_cons, ih]
        tauto

lemma sortedDesc_insert {m : SaslMechanism} :
    ∀ {l : List SaslMechanism}, sortedDesc l →
      sortedDesc (insertByStrengthDesc m l) := by
  intro l
  induction l with
  | nil => intro _; simp [insertByStrengthDesc, sortedDesc]
  | cons a t ih =>
      intro hs
      unfold sortedDesc at hs ih ⊢
      rw [List.pairwise_cons] at hs
      by_cases h1 : a.security_strength < m.security_strength
      · rw [insertByStrengthDesc, if_pos h1, List.pairwise_cons]
        refine ⟨fun y hy => ?_, ?_⟩
        · rcases List.mem_cons.mp hy with rfl | hy
          · exact Nat.le_of_lt h1
          · exact Nat.le_trans (hs.1 y hy) (Nat.le_of_lt h1)
        · rw [List.pairwise_cons]
          exact ⟨hs.1, hs.2⟩
      · rw [insertByStrengthDesc, if_neg h1, List.pairwise_cons]
        refine ⟨fun y hy => ?_, ih hs.2⟩
        rcases mem_insertByStrengthDesc.mp hy with rfl | hy
        · exact Nat.le_of_not_lt h1
        · exact hs.1 y hy

lemma mem_sortByStrengthDesc {x : SaslMechanism} :
    ∀ {l : List SaslMechanism}, x ∈ sortByStrengthDesc l ↔ x ∈ l := by
  intro l
  induction l with
  | nil => simp [sortByStrengthDesc]
  | cons a t ih =>
      rw [sortByStrengthDesc]
      rw [mem_insertByStrengthDesc, ih]
      simp

lemma sortedDesc_sort : ∀ l : List SaslMechanism, sortedDesc (sortByStrengthDesc l) := by
  intro l
  induction l with
  | nil => simp [sortByStrengthDesc, sortedDesc]
  | cons a t ih => exact sortedDesc_insert ih

lemma insertByStrengthDesc_ne_nil (m : SaslMechanism) :
    ∀ l : List SaslMechanism, insertByStrengthDesc m l ≠ [] := by
  intro l
  cases l with
  | nil => simp [insertByStrengthDesc]
  | cons a t =>
      rw [insertByStrengthDesc]
      split <;> simp

lemma sortByStrengthDesc_eq_nil {l : List SaslMechanism} :
    sortByStrengthDesc l = [] ↔ l = [] := by
  cases l with
  | nil => simp [sortByStrengthDesc]
  | cons a t =>
      simp only [sortByStrengthDesc]
      constructor
      · intro h
        exact absurd h (insertByStrengthDesc_ne_nil a _)
      · intro h
        cases h

lemma sortedDesc_head_max {l : List SaslMechanism} {m : SaslMechanism}
    (hs : sortedDesc l) (hh : l.head? = some m) :
    ∀ x ∈ l, x.security_strength ≤ m.security_strength := by
  cases l with
  | nil => cases hh
  | cons a t =>
      have ha : a = m := by
        rw [List.head?_cons] at hh
        exact Option.some.inj hh
      subst ha
      unfold sortedDesc at hs
      rw [List.pairwise_cons] at hs
      intro x hx
      rcases List.mem_cons.mp hx with rfl | hx
      · exact Nat.le_refl _
      · exact hs.1 x hx

/-- C7: `choose_best_mechanism` returns `None` exactly when no mechanism
remains after parsing the recognized names and (without TLS) dropping the
insecure ones; a returned mechanism is a remaining one of maximal
`security_strength`; `from_str` recognizes exactly the three names
case-insensitively; and on `["PLAIN","SCRAM-SHA-256","EXTERNAL"]` it picks
`External` with and without TLS. -/
theorem claim_C7_mechanism_choice :
    (∀ (available : List Str) (tls_enabled : Bool),
      choose_best_mechanism available tls_enabled = none ↔
        saslRemaining available tls_enabled = []) ∧
    (∀ (available : List Str) (tls_enabled : Bool) (m : SaslMechanism),
      choose_best_mechanism available tls_enabled = some m →
        m ∈ saslRemaining available tls_enabled ∧
        ∀ x ∈ saslRemaining available tls_enabled,
          x.security_strength ≤ m.security_strength) ∧
    (∀ s : Str, SaslMechanism.fromStr s ≠ none ↔
      (rustToUppercase s = lit "PLAIN" ∨ rustToUppercase s = lit "EXTERNAL" ∨
       rustToUppercase s = lit "SCRAM-SHA-256")) ∧
    choose_best_mechanism [lit "PLAIN", lit "SCRAM-SHA-256", lit "EXTERNAL"] true =
      some SaslMechanism.External ∧
    choose_best_mechanism [lit "PLAIN", lit "SCRAM-SHA-256", lit "EXTERNAL"] false =
      some SaslMechanism.External := by
  refine ⟨?_, ?_, ?_, by decide, by decide⟩
  · intro available tls
    cases tls
    · simp only [choose_best_mechanism, saslRemaining, Bool.false_eq_true,
        if_false, List.head?_eq_none_iff, List.filter_eq_nil_iff]
      constructor
      · intro h x hx
        exact h x (mem_sortByStrengthDesc.mpr hx)
      · intro h x hx
        exact h x (mem_sortByStrengthDesc.mp hx)
    · simp only [choose_best_mechanism, saslRemaining, if_true,
        List.head?_eq_none_iff]
      exact sortByStrengthDesc_eq_nil
  · intro available tls m hc
    cases tls
    · simp only [choose_best_mechanism, Bool.false_eq_true, if_false] at hc
      simp only [saslRemaining, Bool.false_eq_true, if_false]
      have hmem : m ∈ (sortByStrengthDesc
          (available.filterMap SaslMechanism.fromStr)).filter
            (fun x => x.is_secure) :=
        List.mem_of_mem_head? hc
      have hsorted : sortedDesc ((sortByStrengthDesc
          (available.filterMap SaslMechanism.fromStr)).filter
            (fun x => x.is_secure)) :=
        List.Pairwise.sublist (List.filter_sublist _) (sortedDesc_sort _)
      constructor
      · rcases List.mem_filter.mp hmem with ⟨hm1, hm2⟩
        exact List.mem_filter.mpr ⟨mem_sortByStrengthDesc.mp hm1, hm2⟩
      · intro x hx
        rcases List.mem_filter.mp hx with ⟨hx1, hx2⟩
        exact sortedDesc_head_max hsorted hc x
          (List.mem_filter.mpr ⟨mem_sortByStrengthDesc.mpr hx1, hx2⟩)
    · simp only [choose_best_mechanism, if_true] at hc
      simp only [saslRemaining, if_true]
      constructor
      · exact mem_sortByStrengthDesc.mp (List.mem_of_mem_head? hc)
      · intro x hx
        exact sortedDesc_head_max (sortedDesc_sort _) hc x
          (mem_sortByStrengthDesc.mpr hx)
  · intro s
    rw [SaslMechanism.fromStr]
    split
    · rename_i h1
      simp [h1]
    · split
      · rename_i h1 h2
        simp [h1, h2]
      · split
        · rename_i h1 h2 h3
          simp [h1, h2, h3]
        · rename_i h1 h2 h3
          simp [h1, h2, h3]

/-- C7, witness: the max-strength clause applied to a concrete list
without TLS. -/
theorem claim_C7_witness :
    SaslMechanism.External ∈ saslRemaining [lit "PLAIN", lit "EXTERNAL"] false ∧
    ∀ x ∈ saslRemaining [lit "PLAIN", lit "EXTERNAL"] false,
      x.security_strength ≤ SaslMechanism.External.security_strength :=
  claim_C7_mechanism_choice.2.1 [lit "PLAIN", lit "EXTERNAL"] false
    SaslMechanism.External (by decide)

lemma process_scram_challenge_state (prims : CryptoPrims) (auth : SaslAuth)
    (challenge : Str) :
    ((process_scram_challenge prims auth challenge).2).state = auth.state := by
  unfold process_scram_challenge
  split
  · rfl
  split
  · rfl
  split
  · rfl
  split
  · rfl
  split
  · rfl
  split
  · rfl
  split
  · rfl
  split
  · rfl
  split
  · rfl
  rfl

/-- C9: `process_challenge` never changes the `state` field — for every
primitive implementation, every `SaslAuth` and every challenge the state
after the call is the state before it; `Success` and `Failed` are entered
exactly by `mark_success` and `mark_failed`. -/
theorem claim_C9_state_frame :
    (∀ (prims : CryptoPrims) (auth : SaslAuth) (challenge : Str),
      ((process_challenge prims auth challenge).2).state = auth.state) ∧
    (∀ auth : SaslAuth, (mark_success auth).state = SaslState.Success) ∧
    (∀ auth : SaslAuth, (mark_failed auth).state = SaslState.Failed) := by
  refine ⟨?_, fun _ => rfl, fun _ => rfl⟩
  intro prims auth challenge
  unfold process_challenge
  split
  · rfl
  split
  · rfl
  split
  · rfl
  · rfl
  · exact process_scram_challenge_state prims auth _

lemma stripPrefixStr_append : ∀ (p s : Str), stripPrefixStr p (p ++ s) = some s := by
  intro p
  induction p with
  | nil => intro s; simp [stripPrefixStr]
  | cons c cs ih =>
      intro s
      rw [List.cons_append]
      simp [stripPrefixStr, ih]

lemma scramLoop_r_step {prims : CryptoPrims} {cn p v : Str}
    (hv : stripPrefixStr (lit "r=") p = some v) (hp : cn.isPrefixOf v = true)
    (sn : Option Str) (sa : Option (List Nat)) (it : Option Nat) (rest : List Str) :
    scramLoop prims cn sn sa it (p :: rest) =
      scramLoop prims cn (some v) sa it rest := by
  simp only [scramLoop, hv]
  rw [if_pos hp]

lemma scramLoop_r_fail {prims : CryptoPrims} {cn p v : Str}
    (hv : stripPrefixStr (lit "r=") p = some v) (hp : cn.isPrefixOf v = false)
    (sn : Option Str) (sa : Option (List Nat)) (it : Option Nat) (rest : List Str) :
    scramLoop prims cn sn sa it (p :: rest) =
      .error (.Sasl (lit "Server nonce doesn't start with client nonce")) := by
  simp only [scramLoop, hv]
  rw [if_neg (by rw [hp]; exact Bool.false_ne_true)]

lemma scramLoop_s_step {prims : CryptoPrims} {cn p v : Str} {salt : List Nat}
    (hv : stripPrefixStr (lit "r=") p = none)
    (hs : stripPrefixStr (lit "s=") p = some v)
    (hb : prims.b64decode v = some salt)
    (sn : Option Str) (sa : Option (List Nat)) (it : Option Nat) (rest : List Str) :
    scramLoop prims cn sn sa it (p :: rest) =
      scramLoop prims cn sn (some salt) it rest := by
  simp only [scramLoop, hv, hs, hb]

lemma scramLoop_s_fail {prims : CryptoPrims} {cn p v : Str}
    (hv : stripPrefixStr (lit "r=") p = none)
    (hs : stripPrefixStr (lit "s=") p = some v)
    (hb : prims.b64decode v = none)
    (sn : Option Str) (sa : Option (List Nat)) (it : Option Nat) (rest : List Str) :
    scramLoop prims cn sn sa it (p :: rest) =
      .error (.Sasl (lit "Invalid salt encoding")) := by
  simp only [scramLoop, hv, hs, hb]

lemma scramLoop_i_step {prims : CryptoPrims} {cn p v : Str} {n : Nat}
    (hv : stripPrefixStr (lit "r=") p = none)
    (hs : stripPrefixStr (lit "s=") p = none)
    (hi : stripPrefixStr (lit "i=") p = some v)
    (hn : rustParseNat U32_MAX v = some n)
    (sn : Option Str) (sa : Option (List Nat)) (it : Option Nat) (rest : List Str) :
    scramLoop prims cn sn sa it (p :: rest) =
      scramLoop prims cn sn sa (some n) rest := by
  simp only [scramLoop, hv, hs, hi, hn]

lemma scramLoop_i_fail {prims : CryptoPrims} {cn p v : Str}
    (hv : stripPrefixStr (lit "r=") p = none)
    (hs : stripPrefixStr (lit "s=") p = none)
    (hi : stripPrefixStr (lit "i=") p = some v)
    (hn : rustParseNat U32_MAX v = none)
    (sn : Option Str) (sa : Option (List Nat)) (it : Option Nat) (rest : List Str) :
    scramLoop prims cn sn sa it (p :: rest) =
      .error (.Sasl (lit "Invalid iteration count")) := by
  simp only [scramLoop, hv, hs, hi, hn]

lemma scramLoop_skip_step {prims : CryptoPrims} {cn p : Str}
    (hv : stripPrefixStr (lit "r=") p = none)
    (hs : stripPrefixStr (lit "s=") p = none)
    (hi : stripPrefixStr (lit "i=") p = none)
    (sn : Option Str) (sa : Option (List Nat)) (it : Option Nat) (rest : List Str) :
    scramLoop prims cn sn sa it (p :: rest) =
      scramLoop prims cn sn sa it rest := by
  simp only [scramLoop, hv, hs, hi]

lemma scramLoop_error_sasl (prims : CryptoPrims) (cn : Str) :
    ∀ (parts : List Str) (sn : Option Str) (sa : Option (List Nat))
      (it : Option Nat) (e : IronError),
    scramLoop prims cn sn sa it parts = .error e → ∃ msg, e = .Sasl msg := by
  intro parts
  induction parts with
  | nil =>
      intro sn sa it e he
      rw [scramLoop] at he
      cases he
  | cons part rest ih =>
      intro sn sa it e he
      unfold scramLoop at he
      split at he
      · split at he
        · exact ih _ _ _ _ he
        · injection he with h
          exact ⟨_, h.symm⟩
      · split at he
        · split at he
          · exact ih _ _ _ _ he
          · injection he with h
            exact ⟨_, h.symm⟩
        · split at he
          · split at he
            · exact ih _ _ _ _ he
            · injection he with h
              exact ⟨_, h.symm⟩
          · exact ih _ _ _ _ he

lemma scramLoop_no_r (prims : CryptoPrims) (cn : Str) :
    ∀ (parts : List Str) (sn : Option Str) (sa : Option (List Nat)) (it : Option Nat),
    (∀ p ∈ parts, stripPrefixStr (lit "r=") p = none) →
    (∃ e, scramLoop prims cn sn sa it parts = .error e) ∨
    (∃ sa' it', scramLoop prims cn sn sa it parts = .ok (sn, sa', it')) := by
  intro parts
  induction parts with
  | nil => intro sn sa it _; exact Or.inr ⟨sa, it, rfl⟩
  | cons part rest ih =>
      intro sn sa it h
      have h0 : stripPrefixStr (lit "r=") part = none :=
        h part (List.mem_cons_self _ _)
      have hr : ∀ p ∈ rest, stripPrefixStr (lit "r=") p = none :=
        fun p hp => h p (List.mem_cons_of_mem _ hp)
      cases hs : stripPrefixStr (lit "s=") part with
      | some v =>
          cases hb : prims.b64decode v with
          | some salt =>
              rw [scramLoop_s_step h0 hs hb]
              exact ih sn (some salt) it hr
          | none => exact Or.inl ⟨_, scramLoop_s_fail h0 hs hb sn sa it rest⟩
      | none =>
          cases hi : stripPrefixStr (lit "i=") part with
          | some v =>
              cases hn : rustParseNat U32_MAX v with
              | some n =>
                  rw [scramLoop_i_step h0 hs hi hn]
                  exact ih sn sa (some n) hr
              | none => exact Or.inl ⟨_, scramLoop_i_fail h0 hs hi hn sn sa it rest⟩
          | none =>
              rw [scramLoop_skip_step h0 hs hi]
              exact ih sn sa it hr

lemma scramLoop_no_s (prims : CryptoPrims) (cn : Str) :
    ∀ (parts : List Str) (sn : Option Str) (sa : Option (List Nat)) (it : Option Nat),
    (∀ p ∈ parts, stripPrefixStr (lit "s=") p = none) →
    (∃ e, scramLoop prims cn sn sa it parts = .error e) ∨
    (∃ sn' it', scramLoop prims cn sn sa it parts = .ok (sn', sa, it')) := by
  intro parts
  induction parts with
  | nil => intro sn sa it _; exact Or.inr ⟨sn, it, rfl⟩
  | cons part rest ih =>
      intro sn sa it h
      have h0 : stripPrefixStr (lit "s=") part = none :=
        h part (List.mem_cons_self _ _)
      have hr : ∀ p ∈ rest, stripPrefixStr (lit "s=") p = none :=
        fun p hp => h p (List.mem_cons_of_mem _ hp)
      cases hv : stripPrefixStr (lit "r=") part with
      | some v =>
          cases hp : cn.isPrefixOf v with
          | true =>
              rw [scramLoop_r_step hv hp]
              exact ih (some v) sa it hr
          | false => exact Or.inl ⟨_, scramLoop_r_fail hv hp sn sa it rest⟩
      | none =>
          cases hi : stripPrefixStr (lit "i=") part with
          | some v =>
              cases hn : rustParseNat U32_MAX v with
              | some n =>
                  rw [scramLoop_i_step hv h0 hi hn]
                  exact ih sn sa (some n) hr
              | none => exact Or.inl ⟨_, scramLoop_i_fail hv h0 hi hn sn sa it rest⟩
          | none =>
              rw [scramLoop_skip_step hv h0 hi]
              exact ih sn sa it hr

lemma scramLoop_no_i (prims : CryptoPrims) (cn : Str) :
    ∀ (parts : List Str) (sn : Option Str) (sa : Option (List Nat)) (it : Option Nat),
    (∀ p ∈ parts, stripPrefixStr (lit "i=") p = none) →
    (∃ e, scramLoop prims cn sn sa it parts = .error e) ∨
    (∃ sn' sa', scramLoop prims cn sn sa it parts = .ok (sn', sa', it)) := by
  intro parts
  induction parts with
  | nil => intro sn sa it _; exact Or.inr ⟨sn, sa, rfl⟩
  | cons part rest ih =>
      intro sn sa it h
      have h0 : stripPrefixStr (lit "i=") part = none :=
        h part (List.mem_cons_self _ _)
      have hr : ∀ p ∈ rest, stripPrefixStr (lit "i=") p = none :=
        fun p hp => h p (List.mem_cons_of_mem _ hp)
      cases hv : stripPrefixStr (lit "r=") part with
      | some v =>
          cases hp : cn.isPrefixOf v with
          | true =>
              rw [scramLoop_r_step hv hp]
              exact ih (some v) sa it hr
          | false => exact Or.inl ⟨_, scramLoop_r_fail hv hp sn sa it rest⟩
      | none =>
          cases hs : stripPrefixStr (lit "s=") part with
          | some v =>
              cases hb : prims.b64decode v with
              | some salt =>
                  rw [scramLoop_s_step hv hs hb]
                  exact ih sn (some salt) it hr
              | none => exact Or.inl ⟨_, scramLoop_s_fail hv hs hb sn sa it rest⟩
          | none =>
              rw [scramLoop_skip_step hv hs h0]
              exact ih sn sa it hr

lemma scramLoop_bad_r (prims : CryptoPrims) (cn : Str) :
    ∀ (parts : List Str) (sn : Option Str) (sa : Option (List Nat)) (it : Option Nat),
    (∃ p ∈ parts, ∃ v, stripPrefixStr (lit "r=") p = some v ∧
      cn.isPrefixOf v = false) →
    ∃ e, scramLoop prims cn sn sa it parts = .error e := by
  intro parts
  induction parts with
  | nil =>
      intro sn sa it hex
      rcases hex with ⟨p, hp, _⟩
      cases hp
  | cons part rest ih =>
      intro sn sa it hex
      rcases hex with ⟨p, hp, v, hsv, hpref⟩
      rcases List.mem_cons.mp hp with rfl | hp2
      · exact ⟨_, scramLoop_r_fail hsv hpref sn sa it rest⟩
      · have hbad : ∃ p ∈ rest, ∃ v, stripPrefixStr (lit "r=") p = some v ∧
            cn.isPrefixOf v = false := ⟨p, hp2, v, hsv, hpref⟩
        cases hv : stripPrefixStr (lit "r=") part with
        | some w =>
            cases hpw : cn.isPrefixOf w with
            | true =>
                rw [scramLoop_r_step hv hpw]
                exact ih (some w) sa it hbad
            | false => exact ⟨_, scramLoop_r_fail hv hpw sn sa it rest⟩
        | none =>
            cases hs : stripPrefixStr (lit "s=") part with
            | some w =>
                cases hb : prims.b64decode w with
                | some salt =>
                    rw [scramLoop_s_step hv hs hb]
                    exact ih sn (some salt) it hbad
                | none => exact ⟨_, scramLoop_s_fail hv hs hb sn sa it rest⟩
            | none =>
                cases hi : stripPrefixStr (lit "i=") part with
                | some w =>
                    cases hn : rustParseNat U32_MAX w with
                    | some n =>
                        rw [scramLoop_i_step hv hs hi hn]
                        exact ih sn sa (some n) hbad
                    | none => exact ⟨_, scramLoop_i_fail hv hs hi hn sn sa it rest⟩
                | none =>
                    rw [scramLoop_skip_step hv hs hi]
                    exact ih sn sa it hbad

lemma stripPrefixStr_rs (s : Str) :
    stripPrefixStr (lit "r=") (lit "s=" ++ s) = none := rfl

lemma stripPrefixStr_ri (s : Str) :
    stripPrefixStr (lit "r=") (lit "i=" ++ s) = none := rfl

lemma stripPrefixStr_si (s : Str) :
    stripPrefixStr (lit "s=") (lit "i=" ++ s) = none := rfl

/-- C3: with a stored password and client nonce, `process_scram_challenge`
fails with a `Sasl` error whenever the split challenge has no `r=` part,
no `s=` part, no `i=` part, or some `r=` value that does not start with
the client nonce; and when the challenge splits into exactly
`r=`/`s=`/`i=` parts whose values check out and the key-derivation
primitives succeed, it answers the base64 of
`c=biws,r=<server_nonce>,p=<base64 (client_key XOR client_signature)>`,
with `client_key = HMAC(PBKDF2(password, salt, iterations), "Client Key")`
and `client_signature = HMAC(SHA-256(client_key), auth_message)`, storing
the server nonce, salt and iteration count. -/
theorem claim_C3_scram :
    (∀ (prims : CryptoPrims) (auth : SaslAuth) (challenge pw cn : Str),
      auth.password = some pw → auth.client_nonce = some cn →
      (∀ p ∈ splitOnChar ',' challenge, stripPrefixStr (lit "r=") p = none) →
      ∃ msg, (process_scram_challenge prims auth challenge).1 =
        .error (.Sasl msg)) ∧
    (∀ (prims : CryptoPrims) (auth : SaslAuth) (challenge pw cn : Str),
      auth.password = some pw → auth.client_nonce = some cn →
      (∀ p ∈ splitOnChar ',' challenge, stripPrefixStr (lit "s=") p = none) →
      ∃ msg, (process_scram_challenge prims auth challenge).1 =
        .error (.Sasl msg)) ∧
    (∀ (prims : CryptoPrims) (auth : SaslAuth) (challenge pw cn : Str),
      auth.password = some pw → auth.client_nonce = some cn →
      (∀ p ∈ splitOnChar ',' challenge, stripPrefixStr (lit "i=") p = none) →
      ∃ msg, (process_scram_challenge prims auth challenge).1 =
        .error (.Sasl msg)) ∧
    (∀ (prims : CryptoPrims) (auth : SaslAuth) (challenge pw cn : Str),
      auth.password = some pw → auth.client_nonce = some cn →
      (∃ p ∈ splitOnChar ',' challenge, ∃ v,
        stripPrefixStr (lit "r=") p = some v ∧ cn.isPrefixOf v = false) →
      ∃ msg, (process_scram_challenge prims auth challenge).1 =
        .error (.Sasl msg)) ∧
    (∀ (prims : CryptoPrims) (auth : SaslAuth) (challenge pw cn snv sv iv : Str)
       (salt sp ck cs : List Nat) (iters : Nat),
      auth.password = some pw → auth.client_nonce = some cn →
      splitOnChar ',' challenge =
        [lit "r=" ++ snv, lit "s=" ++ sv, lit "i=" ++ iv] →
      cn.isPrefixOf snv = true →
      prims.b64decode sv = some salt →
      rustParseNat U32_MAX iv = some iters →
      prims.pbkdf2Sha256 (strBytes pw) salt iters = some sp →
      prims.hmacSha256 sp (strBytes (lit "Client Key")) = some ck →
      prims.hmacSha256 (prims.sha256 ck)
        (strBytes (scramAuthMessage auth.username cn snv
          (prims.b64encode salt) iters)) = some cs →
      process_scram_challenge prims auth challenge =
        (.ok (prims.b64encode (strBytes (lit "c=biws,r=" ++ snv ++ lit ",p=" ++
            prims.b64encode (List.zipWith Nat.xor ck cs)))),
         {auth with server_nonce := some snv, salt := some salt,
                    iterations := some iters})) := by
  refine ⟨?_, ?_, ?_, ?_, ?_⟩
  · intro prims auth challenge pw cn hpw hcn hno
    simp only [process_scram_challenge, hpw, hcn]
    rcases scramLoop_no_r prims cn (splitOnChar ',' challenge) none none none hno
      with ⟨e, he⟩ | ⟨sa', it', hok⟩
    · obtain ⟨msg, rfl⟩ :=
        scramLoop_error_sasl prims cn (splitOnChar ',' challenge) _ _ _ _ he
      exact ⟨msg, by rw [he]⟩
    · exact ⟨_, by rw [hok]⟩
  · intro prims auth challenge pw cn hpw hcn hno
    simp only [process_scram_challenge, hpw, hcn]
    rcases scramLoop_no_s prims cn (splitOnChar ',' challenge) none none none hno
      with ⟨e, he⟩ | ⟨sn', it', hok⟩
    · obtain ⟨msg, rfl⟩ :=
        scramLoop_error_sasl prims cn (splitOnChar ',' challenge) _ _ _ _ he
      exact ⟨msg, by rw [he]⟩
    · cases sn' with
      | none => exact ⟨_, by rw [hok]⟩
      | some s0 => exact ⟨_, by rw [hok]⟩
  · intro prims auth challenge pw cn hpw hcn hno
    simp only [process_scram_challenge, hpw, hcn]
    rcases scramLoop_no_i prims cn (splitOnChar ',' challenge) none none none hno
      with ⟨e, he⟩ | ⟨sn', sa', hok⟩
    · obtain ⟨msg, rfl⟩ :=
        scramLoop_error_sasl prims cn (splitOnChar ',' challenge) _ _ _ _ he
      exact ⟨msg, by rw [he]⟩
    · cases sn' with
      | none => exact ⟨_, by rw [hok]⟩
      | some s0 =>
          cases sa' with
          | none => exact ⟨_, by rw [hok]⟩
          | some a0 => exact ⟨_, by rw [hok]⟩
  · intro prims auth challenge pw cn hpw hcn hbad
    simp only [process_scram_challenge, hpw, hcn]
    obtain ⟨e, he⟩ :=
      scramLoop_bad_r prims cn (splitOnChar ',' challenge) none none none hbad
    obtain ⟨msg, rfl⟩ :=
      scramLoop_error_sasl prims cn (splitOnChar ',' challenge) _ _ _ _ he
    exact ⟨msg, by rw [he]⟩
  · intro prims auth challenge pw cn snv sv iv salt sp ck cs iters
      hpw hcn hsplit hpre hsalt hit hkd hck hcs
    simp only [process_scram_challenge, hpw, hcn]
    rw [hsplit]
    rw [scramLoop_r_step (stripPrefixStr_append (lit "r=") snv) hpre,
        scramLoop_s_step (stripPrefixStr_rs sv) (stripPrefixStr_append (lit "s=") sv) hsalt,
        scramLoop_i_step (stripPrefixStr_ri iv) (stripPrefixStr_si iv)
          (stripPrefixStr_append (lit "i=") iv) hit]
    simp only [scramLoop, hkd, hck, hcs]

/-- Concrete primitives for the C3 witness: identity-flavoured encodings
(every theorem about `process_scram_challenge` is quantified over the
primitive implementation, so any total instance exercises it). -/
def cryptoId : CryptoPrims where
  b64encode := fun l => l.map Char.ofNat
  b64decode := fun s => some (s.map Char.toNat)
  utf8Decode := fun _ => some []
  sha256 := fun l => l
  hmacSha256 := fun k d => some (k ++ d)
  pbkdf2Sha256 := fun p _ _ => some p

def authC3 : SaslAuth :=
  ⟨SaslMechanism.ScramSha256, lit "user", some (lit "pw"), some (lit "abc"),
   none, none, none, SaslState.Authenticating⟩

def ckC3 : List Nat := strBytes (lit "pw") ++ strBytes (lit "Client Key")

def csC3 : List Nat :=
  ckC3 ++ strBytes (scramAuthMessage (lit "user") (lit "abc") (lit "abc123")
    (cryptoId.b64encode [81, 85, 70, 66]) 4096)

/-- C3, witness: the success clause on a concrete challenge. -/
theorem claim_C3_witness :
    process_scram_challenge cryptoId authC3 (lit "r=abc123,s=QUFB,i=4096") =
      (.ok (cryptoId.b64encode (strBytes (lit "c=biws,r=" ++ lit "abc123" ++
          lit ",p=" ++ cryptoId.b64encode (List.zipWith Nat.xor ckC3 csC3)))),
       {authC3 with server_nonce := some (lit "abc123"),
                    salt := some [81, 85, 70, 66], iterations := some 4096}) :=
  claim_C3_scram.2.2.2.2 cryptoId authC3 (lit "r=abc123,s=QUFB,i=4096")
    (lit "pw") (lit "abc") (lit "abc123") (lit "QUFB") (lit "4096")
    [81, 85, 70, 66] (strBytes (lit "pw")) ckC3 csC3 4096
    (by decide) (by decide) (by decide) (by decide) (by decide) (by decide)
    (by decide) (by decide) (by decide)

end Legion
